import Mathlib

/-!
androidmemorycheck: the `adb` parsing engine and trend calculator

A shallow embedding of `src/adb/adb.go`.

* A Go `string` holding valid UTF-8 is modelled by the list of its runes
  (`GoString`); `len(s)` is the UTF-8 byte length `byteLen s`, and `[]rune(s)`
  is the list itself.
* A run-time panic (index out of range) is the `Except.error` outcome.
* A Go `map[string]int` is an association list with unique keys; a nil map
  is `none`.
* The shared line cursor `*int` is threaded through the results.
* `float64` accumulators are idealised as exact rationals.
-/

set_option autoImplicit false

namespace Adb

/-- A Go string (valid UTF-8), as the sequence of its runes. -/
abbrev GoString := List Char

/-- The ways a run of the model ends without a result. -/
inductive Panic where
  /-- The Go run-time panic "index out of range". -/
  | indexOutOfRange
  /-- The fuel of a fuel-bounded loop of the model ran out; not a behaviour of
  the program. -/
  | fuelExhausted
  deriving DecidableEq, Repr

deriving instance DecidableEq for Except

/-- Number of bytes of the UTF-8 encoding of one rune. -/
def runeLen (c : Char) : Nat :=
  if c.toNat < 0x80 then 1
  else if c.toNat < 0x800 then 2
  else if c.toNat < 0x10000 then 3
  else 4

/-- Go `len(s)` for a string: the number of bytes. -/
def byteLen : GoString → Nat
  | [] => 0
  | c :: cs => runeLen c + byteLen cs

/-- Go `unicode.IsSpace`. -/
def isSpace (c : Char) : Bool :=
  let n := c.toNat
  n == 0x09 || n == 0x0A || n == 0x0B || n == 0x0C || n == 0x0D || n == 0x20
    || n == 0x85 || n == 0xA0 || n == 0x1680 || (0x2000 ≤ n && n ≤ 0x200A)
    || n == 0x2028 || n == 0x2029 || n == 0x202F || n == 0x205F || n == 0x3000

/-- Drops trailing white space. -/
def trimRight : GoString → GoString
  | [] => []
  | c :: cs =>
    match trimRight cs with
    | [] => if isSpace c then [] else [c]
    | r => c :: r

/-- Go `strings.TrimSpace`. -/
def trimSpace (s : GoString) : GoString :=
  trimRight (s.dropWhile isSpace)

/-- The test `len(strings.TrimSpace(line)) == 0`. -/
def isBlankLine (s : GoString) : Bool :=
  (trimSpace s).isEmpty

/-- Go `unicode.ToLower` on one rune. Besides `A`-`Z`, the only runes whose
lower case is an ASCII letter are U+0130 and U+212A; every other rune outside
ASCII maps to a rune outside ASCII and is left as it is here, which does not
change a comparison with an ASCII string. -/
def toLowerRune (c : Char) : Char :=
  if 'A'.toNat ≤ c.toNat ∧ c.toNat ≤ 'Z'.toNat then Char.ofNat (c.toNat + 32)
  else if c.toNat = 0x130 then 'i'
  else if c.toNat = 0x212A then 'k'
  else c

/-- Go `strings.ToLower`. -/
def toLower (s : GoString) : GoString :=
  s.map toLowerRune

/-- A decimal digit `0`-`9`. -/
def isDigit (c : Char) : Bool :=
  '0'.toNat ≤ c.toNat && c.toNat ≤ '9'.toNat

/-- Value of a string of decimal digits, most significant first. -/
def digitsValue (s : GoString) : Nat :=
  s.foldl (fun acc c => acc * 10 + (c.toNat - '0'.toNat)) 0

/-- Size in bits of the Go type `int` (64-bit platforms). -/
def intSize : Nat := 64

/-- Go `strconv.Atoi`: an optional sign, then one or more decimal digits, the
value inside the range of `int`; `none` is a non-nil error. -/
def atoi (s : GoString) : Option Int :=
  let unsigned (ds : GoString) (neg : Bool) : Option Int :=
    if ds.isEmpty || !ds.all isDigit then none
    else
      let n := digitsValue ds
      if neg then
        if n ≤ 2 ^ (intSize - 1) then some (-(n : Int)) else none
      else
        if n < 2 ^ (intSize - 1) then some (n : Int) else none
  match s with
  | '-' :: ds => unsigned ds true
  | '+' :: ds => unsigned ds false
  | ds => unsigned ds false

/-- The call `regexpBracket.ReplaceAllString(s, "")` for the pattern
`([(][^)]*[)])`: scanning from the left, every `(` that has a `)` somewhere
after it is deleted together with everything up to and including the first
such `)`. The flag tells whether the scan is inside a match. -/
def removeBracketsAux : Bool → GoString → GoString
  | _, [] => []
  | true, c :: cs => if c = ')' then removeBracketsAux false cs else removeBracketsAux true cs
  | false, c :: cs =>
    if c = '(' ∧ ')' ∈ cs then removeBracketsAux true cs
    else c :: removeBracketsAux false cs

/-- See `removeBracketsAux`. -/
def removeBrackets (s : GoString) : GoString :=
  removeBracketsAux false s

/-- The regular expression `^[\t -]+$` of `regexpHeaderSeparator`. -/
def isHeaderSeparator (s : GoString) : Bool :=
  !s.isEmpty && s.all (fun c => c = '\t' || c = ' ' || c = '-')

/-! ## Metric maps -/

/-- A non-nil Go `map[string]int`: keys are unique. -/
abbrev MetricMap := List (GoString × Int)

/-- The assignment `m[key] = value`. -/
def MetricMap.set : MetricMap → GoString → Int → MetricMap
  | [], k, v => [(k, v)]
  | (k', v') :: m, k, v => if k' = k then (k, v) :: m else (k', v') :: MetricMap.set m k v

/-- The lookup `m[key]` with its presence flag. -/
def MetricMap.get : MetricMap → GoString → Option Int
  | [], _ => none
  | (k', v') :: m, k => if k' = k then some v' else MetricMap.get m k

/-- The loop `for k, v := range src \x7b dst[k] = v \x7d`. -/
def MetricMap.merge (dst src : MetricMap) : MetricMap :=
  src.foldl (fun acc kv => MetricMap.set acc kv.1 kv.2) dst

/-- Go `len(m)` of a possibly nil map. -/
def mapLen : Option MetricMap → Nat
  | none => 0
  | some m => m.length

/-! ## Column boundaries and splitting -/

/-- The second loop of `findIndizesOfEndingText`; `rest` is
`inputrunes[inputindex:]` and `n` is `len(input)`. -/
def findEndsLoop (n : Nat) : GoString → Nat → Bool → List Nat → Except Panic (List Nat)
  | [], inputindex, _, output =>
    if inputindex < n then Except.error Panic.indexOutOfRange else Except.ok output
  | c :: cs, inputindex, findend, output =>
    if inputindex < n then
      if findend then
        if isSpace c then findEndsLoop n cs (inputindex + 1) false (output ++ [inputindex])
        else findEndsLoop n cs (inputindex + 1) true output
      else
        if !isSpace c then findEndsLoop n cs (inputindex + 1) true output
        else findEndsLoop n cs (inputindex + 1) false output
    else Except.ok output

/-- The first loop of `findIndizesOfEndingText` (skip the leading white
space), followed by the second. -/
def findStartLoop (n : Nat) : GoString → Nat → Except Panic (List Nat)
  | [], inputindex =>
    if inputindex < n then Except.error Panic.indexOutOfRange else Except.ok []
  | c :: cs, inputindex =>
    if inputindex < n then
      if !isSpace c then findEndsLoop n (c :: cs) inputindex false []
      else findStartLoop n cs (inputindex + 1)
    else findEndsLoop n (c :: cs) inputindex false []

/-- Go `findIndizesOfEndingText`. -/
def findIndizesOfEndingText (input : GoString) : Except Panic (List Nat) :=
  findStartLoop (byteLen input) input 0

/-- The inner loop of `splitAt`: copies `inputrunes[j]` while
`j < currentindex && j < len(input)`; `rest` is `inputrunes[j:]`. -/
def copyRunes (n currentindex : Nat) : GoString → Nat → Except Panic GoString
  | [], j =>
    if j < currentindex ∧ j < n then Except.error Panic.indexOutOfRange else Except.ok []
  | c :: cs, j =>
    if j < currentindex ∧ j < n then
      match copyRunes n currentindex cs (j + 1) with
      | Except.ok r => Except.ok (c :: r)
      | Except.error e => Except.error e
    else Except.ok []

/-- The outer loop of `splitAt` over the index list. -/
def splitLoop (input : GoString) : List Nat → Nat → Except Panic (List GoString)
  | [], _ => Except.ok []
  | currentindex :: indizes, lastindex =>
    match copyRunes (byteLen input) currentindex (input.drop lastindex) lastindex with
    | Except.error e => Except.error e
    | Except.ok currentvalue =>
      match splitLoop input indizes currentindex with
      | Except.error e => Except.error e
      | Except.ok output => Except.ok (trimSpace currentvalue :: output)

/-- Go `splitAt` for a non-nil index slice (the only kind `parseTable`
passes). -/
def splitAt (input : GoString) (indizes : List Nat) : Except Panic (List GoString) :=
  splitLoop input (indizes ++ [byteLen input]) 0

/-! ## The table parser -/

/-- Go `jumpOverEmptyLines`: the new value of `*lineindex`. -/
def jumpOverEmptyLines (input : List GoString) (lineindex : Nat) : Nat :=
  lineindex + ((input.drop lineindex).takeWhile isBlankLine).length

/-- The nested loops of `parseTable` that append to `headerlineindizes`
every value of `tempindizes` not yet in it. -/
def addIndizes (headerlineindizes tempindizes : List Nat) : List Nat :=
  tempindizes.foldl (fun acc value => if value ∈ acc then acc else acc ++ [value])
    headerlineindizes

/-- How the header loop of `parseTable` ends; each case carries the value of
`*outputstringindex` at that point. -/
inductive HeaderScan where
  /-- A blank line was met: `return nil`. -/
  | blank (index : Nat)
  /-- The separator was met on line `headerendindex`. -/
  | separator (headerendindex : Nat) (headerlineindizes : List Nat)
  /-- The input ended; `headerendindex` keeps its initial value. -/
  | exhausted (index : Nat) (headerlineindizes : List Nat)
  deriving DecidableEq, Repr

/-- The header loop of `parseTable`; the list is
`outputstringlines[*outputstringindex:]`. -/
def headerLoop : List GoString → Nat → List Nat → Except Panic HeaderScan
  | [], index, headerlineindizes => Except.ok (HeaderScan.exhausted index headerlineindizes)
  | currentline :: rest, index, headerlineindizes =>
    if isBlankLine currentline then Except.ok (HeaderScan.blank index)
    else if isHeaderSeparator currentline then
      Except.ok (HeaderScan.separator index headerlineindizes)
    else
      match findIndizesOfEndingText currentline with
      | Except.error e => Except.error e
      | Except.ok tempindizes =>
        headerLoop rest (index + 1) (addIndizes headerlineindizes tempindizes)

/-- The call `sort.Slice(headerlineindizes, ... <= ...)`. The slice holds no
value twice, so the result is its ascending arrangement. -/
def sortIndizes (headerlineindizes : List Nat) : List Nat :=
  headerlineindizes.insertionSort (· ≤ ·)

/-- The loop over `j` that folds one split header line into
`headerlinevalues`. -/
def mergeHeaderLine : List GoString → List GoString → List GoString
  | headerlinevalues, [] => headerlinevalues
  | [], s :: ss => trimSpace s :: mergeHeaderLine [] ss
  | v :: vs, s :: ss => (v ++ [' '] ++ trimSpace s) :: mergeHeaderLine vs ss

/-- The loop "Read the header names" over the lines
`outputstringlines[headerstartindex:headerendindex]`. -/
def headerNamesLoop (headerlineindizes : List Nat) :
    List GoString → List GoString → Except Panic (List GoString)
  | [], headerlinevalues => Except.ok headerlinevalues
  | currentline :: rest, headerlinevalues =>
    match splitAt currentline headerlineindizes with
    | Except.error e => Except.error e
    | Except.ok currentsplitresult =>
      headerNamesLoop headerlineindizes rest (mergeHeaderLine headerlinevalues currentsplitresult)

/-- The loop "Parse the length of the name indizes". -/
def nameLengthLoop : List GoString → Nat → Except Panic Nat
  | [], namelength => Except.ok namelength
  | currentline :: rest, namelength =>
    if isBlankLine currentline then Except.ok namelength
    else
      match findIndizesOfEndingText currentline with
      | Except.error e => Except.error e
      | Except.ok tempindizes =>
        match tempindizes with
        | [] => nameLengthLoop rest namelength
        | first :: _ => nameLengthLoop rest (if first > namelength then first else namelength)

/-- The loop over `i` from 1 on one split row: `cells` is `splitresult[i:]`
and `headers` is `headerlinevalues[i-1:]`. -/
def cellsLoop (pfx rowname : GoString) :
    List GoString → List GoString → MetricMap → Except Panic MetricMap
  | [], _, result => Except.ok result
  | cell :: cells, headers, result =>
    let value := trimSpace (removeBrackets cell)
    if byteLen value > 0 then
      match headers with
      | [] => Except.error Panic.indexOutOfRange
      | header :: headers' =>
        let key := pfx ++ trimSpace rowname ++ [' '] ++ header
        match atoi value with
        | some numbervalue => cellsLoop pfx rowname cells headers' (result.set key numbervalue)
        | none => cellsLoop pfx rowname cells headers' result
    else cellsLoop pfx rowname cells (headers.drop 1) result

/-- The data-row loop of `parseTable`; the list is
`outputstringlines[*outputstringindex:]`. -/
def rowsLoop (headerlineindizes : List Nat) (headerlinevalues : List GoString) (pfx : GoString) :
    List GoString → Nat → MetricMap → Except Panic (Option MetricMap × Nat)
  | [], index, result => Except.ok (some result, index)
  | currentline :: rest, index, result =>
    if isBlankLine currentline then Except.ok (some result, index)
    else
      match splitAt currentline headerlineindizes with
      | Except.error e => Except.error e
      | Except.ok splitresult =>
        if splitresult.length ≠ headerlinevalues.length + 1 then Except.ok (none, index)
        else
          match splitresult with
          | [] => rowsLoop headerlineindizes headerlinevalues pfx rest (index + 1) result
          | rowname :: cells =>
            match cellsLoop pfx rowname cells headerlinevalues result with
            | Except.error e => Except.error e
            | Except.ok result' =>
              rowsLoop headerlineindizes headerlinevalues pfx rest (index + 1) result'

/-- The part of `parseTable` after the header loop, with the header lines at
`[headerstartindex, headerendindex)` and the cursor at `index`. -/
def parseTableBody (outputstringlines : List GoString)
    (headerstartindex headerendindex index : Nat) (headerlineindizes : List Nat)
    (pfx : GoString) : Except Panic (Option MetricMap × Nat) :=
  match sortIndizes headerlineindizes with
  | [] => Except.ok (none, index)
  | first :: sorted =>
    match headerNamesLoop (first :: sorted)
        ((outputstringlines.drop headerstartindex).take (headerendindex - headerstartindex))
        [] with
    | Except.error e => Except.error e
    | Except.ok headerlinevalues =>
      match nameLengthLoop (outputstringlines.drop index) 0 with
      | Except.error e => Except.error e
      | Except.ok namelength =>
        if namelength = 0 ∨ namelength ≥ first then Except.ok (none, index)
        else
          rowsLoop (namelength :: first :: sorted) headerlinevalues pfx
            (outputstringlines.drop index) index []

/-- Go `parseTable`: the returned map (`none` is nil) and the final value of
`*outputstringindex`. -/
def parseTable (outputstringlines : List GoString) (outputstringindex : Nat) (pfx : GoString) :
    Except Panic (Option MetricMap × Nat) :=
  let headerstartindex := jumpOverEmptyLines outputstringlines outputstringindex
  match headerLoop (outputstringlines.drop headerstartindex) headerstartindex [] with
  | Except.error e => Except.error e
  | Except.ok (HeaderScan.blank index) => Except.ok (none, index)
  | Except.ok (HeaderScan.separator headerendindex headerlineindizes) =>
    parseTableBody outputstringlines headerstartindex headerendindex (headerendindex + 1)
      headerlineindizes pfx
  | Except.ok (HeaderScan.exhausted index headerlineindizes) =>
    parseTableBody outputstringlines headerstartindex headerstartindex index
      headerlineindizes pfx

/-! ## The key/value scanner -/

/-- The class `[a-zA-Z_ ]` of `regexpKeyValuePairs`. -/
def isKeyChar (c : Char) : Bool :=
  ('a'.toNat ≤ c.toNat && c.toNat ≤ 'z'.toNat) || ('A'.toNat ≤ c.toNat && c.toNat ≤ 'Z'.toNat)
    || c = '_' || c = ' '

/-- The class `[\t ]`. -/
def isTabOrSpace (c : Char) : Bool :=
  c = '\t' || c = ' '

/-- A match of `([a-zA-Z_ ]+)[:][\t ]*([0-9]+)` that starts at the first rune
of the string: the two groups and the length of the match. Every repetition is
followed by a rune outside its class, so a match takes each run whole. -/
def keyValueMatchAt (s : GoString) : Option (GoString × GoString × Nat) :=
  let name := s.takeWhile isKeyChar
  if name.isEmpty then none
  else
    match s.dropWhile isKeyChar with
    | ':' :: r =>
      let blanks := r.takeWhile isTabOrSpace
      let digits := (r.dropWhile isTabOrSpace).takeWhile isDigit
      if digits.isEmpty then none
      else some (name, digits, name.length + 1 + blanks.length + digits.length)
    | _ => none

/-- The call `regexpKeyValuePairs.FindAllStringSubmatch(line, -1)`: the
leftmost matches, none overlapping. The counter is the number of runes still
covered by the previous match. -/
def findAllKeyValueAux : Nat → GoString → List (GoString × GoString)
  | _, [] => []
  | skip + 1, _ :: cs => findAllKeyValueAux skip cs
  | 0, c :: cs =>
    match keyValueMatchAt (c :: cs) with
    | some (name, digits, len) => (name, digits) :: findAllKeyValueAux (len - 1) cs
    | none => findAllKeyValueAux 0 cs

/-- See `findAllKeyValueAux`. -/
def findAllKeyValue (line : GoString) : List (GoString × GoString) :=
  findAllKeyValueAux 0 line

/-- The loop over the matches of one line in `findKeyValueMatches`. Every
match has its three groups, so the `len(match) != 3` return is not taken. -/
def keyValueMatchLoop (pfx : GoString) : List (GoString × GoString) → MetricMap → MetricMap
  | [], result => result
  | (name, digits) :: rest, result =>
    let key := pfx ++ trimSpace name
    let value := trimSpace (removeBrackets digits)
    match atoi value with
    | some numbervalue => keyValueMatchLoop pfx rest (result.set key numbervalue)
    | none => keyValueMatchLoop pfx rest result

/-- The line loop of `findKeyValueMatches`; the list is
`outputstringlines[*outputstringindex:]`. -/
def keyValueLinesLoop (pfx : GoString) : List GoString → Nat → MetricMap → MetricMap × Nat
  | [], index, result => (result, index)
  | currentline :: rest, index, result =>
    if isBlankLine currentline then (result, index)
    else
      let allmatches := findAllKeyValue currentline
      if allmatches.length = 0 then (result, index)
      else keyValueLinesLoop pfx rest (index + 1) (keyValueMatchLoop pfx allmatches result)

/-- Go `findKeyValueMatches`: the returned map (never nil) and the final value
of `*outputstringindex`. -/
def findKeyValueMatches (outputstringlines : List GoString) (outputstringindex : Nat)
    (pfx : GoString) : MetricMap × Nat :=
  let start := jumpOverEmptyLines outputstringlines outputstringindex
  keyValueLinesLoop pfx (outputstringlines.drop start) start []

/-! ## The intro marker -/

/-- Regular expressions over runes. -/
inductive Rx where
  | none
  | eps
  | cls (p : Char → Bool)
  | cat (a b : Rx)
  | alt (a b : Rx)
  | star (a : Rx)

/-- Does the expression match the empty string? -/
def Rx.nullable : Rx → Bool
  | Rx.none => false
  | Rx.eps => true
  | Rx.cls _ => false
  | Rx.cat a b => a.nullable && b.nullable
  | Rx.alt a b => a.nullable || b.nullable
  | Rx.star _ => true

/-- The derivative of an expression by one rune. -/
def Rx.deriv (c : Char) : Rx → Rx
  | Rx.none => Rx.none
  | Rx.eps => Rx.none
  | Rx.cls p => if p c then Rx.eps else Rx.none
  | Rx.cat a b =>
    if a.nullable then Rx.alt (Rx.cat (a.deriv c) b) (b.deriv c) else Rx.cat (a.deriv c) b
  | Rx.alt a b => Rx.alt (a.deriv c) (b.deriv c)
  | Rx.star a => Rx.cat (a.deriv c) (Rx.star a)

/-- Does the expression match the whole string? -/
def Rx.fullMatch : Rx → GoString → Bool
  | r, [] => r.nullable
  | r, c :: cs => Rx.fullMatch (r.deriv c) cs

/-- One or more repetitions. -/
def Rx.plus (a : Rx) : Rx := Rx.cat a (Rx.star a)

/-- Concatenation of a list of expressions. -/
def Rx.seq : List Rx → Rx
  | [] => Rx.eps
  | r :: rs => Rx.cat r (Rx.seq rs)

/-- The literal text. -/
def Rx.lit (s : GoString) : Rx :=
  Rx.seq (s.map (fun c => Rx.cls (fun d => d = c)))

/-- The pattern of `regexpMemoryOverviewStart` between `^` and `$`:
`[\t ]*[*]{2}[\t ]+MEMINFO[\t ]in[\t ]pid[\t ][0-9]+[\t ]+[\[][^\]]+[\]][\t ]+[*]{2}[\t ]*`. -/
def memoryOverviewStartPattern : Rx :=
  Rx.seq [
    Rx.star (Rx.cls isTabOrSpace), Rx.lit ['*', '*'], Rx.plus (Rx.cls isTabOrSpace),
    Rx.lit "MEMINFO".toList, Rx.cls isTabOrSpace, Rx.lit "in".toList, Rx.cls isTabOrSpace,
    Rx.lit "pid".toList, Rx.cls isTabOrSpace, Rx.plus (Rx.cls isDigit),
    Rx.plus (Rx.cls isTabOrSpace), Rx.lit ['['], Rx.plus (Rx.cls (fun c => c ≠ ']')),
    Rx.lit [']'], Rx.plus (Rx.cls isTabOrSpace), Rx.lit ['*', '*'],
    Rx.star (Rx.cls isTabOrSpace)]

/-- The call `regexpMemoryOverviewStart.MatchString(line)`. -/
def matchesMemoryOverviewStart (line : GoString) : Bool :=
  memoryOverviewStartPattern.fullMatch line

/-- The loop of `isMemoryOverviewIntro`; the list is `input[*lineindex:]`. The
result is the returned flag and the final value of `*lineindex`. -/
def introLoop : List GoString → Nat → Bool × Nat
  | [], lineindex => (false, lineindex)
  | line :: rest, lineindex =>
    if matchesMemoryOverviewStart line then (true, lineindex + 1)
    else introLoop rest (lineindex + 1)

/-- Go `isMemoryOverviewIntro` on non-nil arguments. -/
def isMemoryOverviewIntro (input : List GoString) (lineindex : Nat) : Bool × Nat :=
  introLoop (input.drop lineindex) lineindex

/-! ## The scan -/

/-- The two errors `Scan` returns once the lines are acquired. -/
inductive ScanError where
  /-- "invalid response format (no memory overview found)". -/
  | noMemoryOverview
  /-- "invalid response format (no memory info found)". -/
  | noMemoryInfo
  deriving DecidableEq, Repr

/-- The guarded merge `if len(tempmap) > 0 \x7b for ... result[k] = v \x7d`. -/
def mergeIfAny (result : MetricMap) (tempmap : Option MetricMap) : MetricMap :=
  match tempmap with
  | some m => if m.length > 0 then result.merge m else result
  | none => result

/-- The loop "Parse all the rest" of `Scan`, one loop test per unit of fuel:
`index` is `outputstringindex` at the loop test. Every iteration raises the
index, so `len(outputstringlines) - index + 1` units of fuel reach the failing
loop test; running out of fuel is reported as such. -/
def scanLoop (outputstringlines : List GoString) :
    Nat → Nat → MetricMap → Except Panic MetricMap
  | 0, _, _ => Except.error Panic.fuelExhausted
  | fuel + 1, index, result =>
    if index < outputstringlines.length then
      let index := jumpOverEmptyLines outputstringlines index
      match outputstringlines.get? index with
      | none => scanLoop outputstringlines fuel (index + 1) result
      | some line =>
        let currentlinelower := toLower (trimSpace line)
        if currentlinelower = "app summary".toList then
          match parseTable outputstringlines (index + 1) "APP ".toList with
          | Except.error e => Except.error e
          | Except.ok (tempmap, index') =>
            scanLoop outputstringlines fuel (index' + 1) (mergeIfAny result tempmap)
        else if currentlinelower = "objects".toList then
          match findKeyValueMatches outputstringlines (index + 1) "OBJECTS ".toList with
          | (tempmap, index') =>
            scanLoop outputstringlines fuel (index' + 1) (mergeIfAny result (some tempmap))
        else if currentlinelower = "sql".toList then
          match findKeyValueMatches outputstringlines (index + 1) "SQL ".toList with
          | (tempmap, index') =>
            scanLoop outputstringlines fuel (index' + 1) (mergeIfAny result (some tempmap))
        else scanLoop outputstringlines fuel (index + 1 + 1) result
    else Except.ok result

/-- Go `Scan` from the point where the output of the diagnostic tool has been
split into `outputstringlines` (lines 159-207 of `adb.go`). -/
def Scan (outputstringlines : List GoString) : Except Panic (Except ScanError MetricMap) :=
  match isMemoryOverviewIntro outputstringlines 0 with
  | (false, _) => Except.ok (Except.error ScanError.noMemoryOverview)
  | (true, index) =>
    match parseTable outputstringlines index "MEM ".toList with
    | Except.error e => Except.error e
    | Except.ok (meminfo, index') =>
      if mapLen meminfo = 0 then Except.ok (Except.error ScanError.noMemoryInfo)
      else
        match scanLoop outputstringlines (outputstringlines.length - index' + 1) index'
            (MetricMap.merge [] (meminfo.getD [])) with
        | Except.error e => Except.error e
        | Except.ok result => Except.ok (Except.ok result)

/-! ## The trend calculator -/

/-- Go `internalTrendCalculator`, the accumulators as exact rationals. -/
structure internalTrendCalculator where
  hasvalues : Bool
  p1000 : ℚ
  p100 : ℚ
  p10 : ℚ
  p1 : ℚ
  deriving DecidableEq

/-- The zero value `internalTrendCalculator\x7b\x7d`. -/
def internalTrendCalculator.zero : internalTrendCalculator :=
  ⟨false, 0, 0, 0, 0⟩

/-- Go `getTrend` on a receiver that may be nil (`none`): the receiver after
the call and the four returned values. -/
def getTrend (trend : Option internalTrendCalculator) (value : Int) :
    Option internalTrendCalculator × (ℚ × ℚ × ℚ × ℚ) :=
  match trend with
  | none => (none, (0, 0, 0, 0))
  | some t =>
    if t.hasvalues then
      let p1000 := t.p1000 * (999 / 1000) + (value : ℚ) * (1 / 1000)
      let p100 := t.p100 * (99 / 100) + (value : ℚ) * (1 / 100)
      let p10 := t.p10 * (9 / 10) + (value : ℚ) * (1 / 10)
      let p1 := (value : ℚ)
      (some ⟨true, p1000, p100, p10, p1⟩,
        (p1000 - t.p1000, p100 - t.p100, p10 - t.p10, p1 - t.p1))
    else
      (some ⟨true, value, value, value, value⟩, (0, 0, 0, 0))

/-- Go `internalReader`: the calculators the `trends` map points to, by key. -/
structure internalReader where
  adbpath : GoString
  trends : List (GoString × internalTrendCalculator)

/-- The lookup `reader.trends[key]`. -/
def lookupTrend : List (GoString × internalTrendCalculator) → GoString →
    Option internalTrendCalculator
  | [], _ => none
  | (k, t) :: rest, key => if k = key then some t else lookupTrend rest key

/-- The store `reader.trends[key] = ...`, also the write through the pointer
held in the map. -/
def storeTrend : List (GoString × internalTrendCalculator) → GoString →
    internalTrendCalculator → List (GoString × internalTrendCalculator)
  | [], key, t => [(key, t)]
  | (k, t') :: rest, key, t =>
    if k = key then (key, t) :: rest else (k, t') :: storeTrend rest key t

/-- Go `CreateReader`. -/
def CreateReader (adbpath : GoString) : internalReader :=
  ⟨if byteLen (trimSpace adbpath) = 0 then "adb".toList else trimSpace adbpath, []⟩

/-- Go `Trend` on a non-nil reader: the reader after the call and the four
returned values. When the key is new, the fresh calculator is bound to a
variable declared inside the `if` block, so the outer `existingtrend`, on which
`getTrend` is called, is still nil. -/
def Trend (reader : internalReader) (key : GoString) (value : Int) :
    internalReader × (ℚ × ℚ × ℚ × ℚ) :=
  match lookupTrend reader.trends key with
  | none =>
    let reader' : internalReader :=
      ⟨reader.adbpath, storeTrend reader.trends key internalTrendCalculator.zero⟩
    (reader', (getTrend none value).2)
  | some existingtrend =>
    match getTrend (some existingtrend) value with
    | (some t, out) => (⟨reader.adbpath, storeTrend reader.trends key t⟩, out)
    | (none, out) => (reader, out)

/-! ## Concrete inputs -/

/-- A marker line. -/
def markerLine : GoString := "** MEMINFO in pid 1234 [com.example.app] **".toList

/-- Marker, a one-row overview table, then an `App Summary` section whose
first line holds a two-byte rune. -/
def nonAsciiSectionLines : List GoString :=
  [markerLine, "     Pss ".toList, "  ------".toList, "Nat   15".toList, [],
    "App Summary".toList, ['é']]

/-- Marker, the header block `Pss` / `Private Dirty`, a separator, the rows
`Native Heap` and `Dalvik Heap`, a blank line. -/
def twoRowOverviewLines : List GoString :=
  [markerLine,
    "                 Pss  Private".toList,
    "                        Dirty".toList,
    "              ------   ------".toList,
    "  Native Heap  10468    10408".toList,
    "  Dalvik Heap   7308     7280".toList,
    []]

/-- An overview table, then an unrecognized line right before the label
`Objects` and its key/value line. -/
def garbageBeforeLabelLines : List GoString :=
  [markerLine, "     Pss ".toList, "  ------".toList, "Nat   15".toList, [],
    "garbage".toList, "Objects".toList, "Views: 10".toList]

/-- The same lines without the unrecognized line. -/
def labelOnlyLines : List GoString :=
  [markerLine, "     Pss ".toList, "  ------".toList, "Nat   15".toList, [],
    "Objects".toList, "Views: 10".toList]

/-! ## Specification-side definitions -/

/-- The lines a key/value section is made of: the lines up to, and without,
the first one that is blank or holds no key/value match. -/
def keyValueRun (lines : List GoString) : List GoString :=
  lines.takeWhile (fun line => !isBlankLine line && (findAllKeyValue line).length != 0)

/-- The entries one line adds: `pfx + trimmed(name) -> number` for every match
whose number fits the type `int`. -/
def keyValueEntries (pfx : GoString) (line : GoString) : List (GoString × Int) :=
  (findAllKeyValue line).filterMap (fun m =>
    if digitsValue m.2 < 2 ^ 63 then some (pfx ++ trimSpace m.1, (digitsValue m.2 : Int))
    else none)

/-- A key/value line whose number does not fit the type `int`. -/
def hugeNumberLines : List GoString :=
  ["Views: 99999999999999999999".toList, []]

/-- The lines of the key/value example. -/
def viewsLines : List GoString :=
  ["Views: 10".toList, "ViewRootImpl: 2".toList, "garbage".toList, []]

/-- A table whose only cell reads `-5`. -/
def negativeCellLines : List GoString :=
  ["     Pss ".toList, "  ------".toList, "Nat   -5".toList, []]

/-- A table whose only cell reads `+5`. -/
def plusCellLines : List GoString :=
  ["     Pss ".toList, "  ------".toList, "Nat   +5".toList, []]

/-- Every value of the map lies in the range of the type `int`. -/
def ValuesInRange (m : MetricMap) : Prop :=
  ∀ kv ∈ m, -(2 : Int) ^ 63 ≤ kv.2 ∧ kv.2 < (2 : Int) ^ 63

/-- Every rune of the string is a single byte. -/
def isAscii (s : GoString) : Bool :=
  s.all (fun c => c.toNat < 128)

/-- The offsets a scan of `findIndizesOfEndingText` records on a string of
single-byte runes: `i` is the offset of the first rune of the list and the
flag tells whether the scan is inside a word. -/
def wordEnds : GoString → Nat → Bool → List Nat
  | [], _, _ => []
  | c :: cs, i, true =>
    if isSpace c then i :: wordEnds cs (i + 1) false else wordEnds cs (i + 1) true
  | c :: cs, i, false =>
    if isSpace c then wordEnds cs (i + 1) false else wordEnds cs (i + 1) true

/-- The fields `splitAt` cuts a string of single-byte runes into, for the
offsets `indizes` starting from `lastindex`: the runes from one offset up to
the next, trimmed. -/
def fieldsFrom (input : GoString) : List Nat → Nat → List GoString
  | [], _ => []
  | currentindex :: indizes, lastindex =>
    trimSpace ((input.drop lastindex).take (currentindex - lastindex))
      :: fieldsFrom input indizes currentindex

/-- A table whose last data row has one cell fewer than the header has
columns. -/
def shortRowLines : List GoString :=
  ["          Pss  Private".toList,
   "       ------   ------".toList,
   "Native  10468    10408".toList,
   "Dalvik   7308".toList,
   []]

/-- The lines a table is parsed from: the lines from the cursor on, without
the leading blank lines. -/
def tableBlock (lines : List GoString) (cursor : Nat) : List GoString :=
  lines.drop (jumpOverEmptyLines lines cursor)

/-- The header lines of a table block: the lines before the first line that
is blank or a separator. -/
def headerBlock (block : List GoString) : List GoString :=
  block.takeWhile (fun line => !isBlankLine line && !isHeaderSeparator line)

/-- A separator line occurs before the first blank line and before the end of
the input. -/
def separatorFound (block : List GoString) : Bool :=
  match block.drop (headerBlock block).length with
  | line :: _ => !isBlankLine line
  | [] => false

/-- The column boundaries of a table block: the union of the word ends of
the header lines, ascending. -/
def columnBoundaries (block : List GoString) : List Nat :=
  sortIndizes ((headerBlock block).foldl (fun acc line => addIndizes acc (wordEnds line 0 false)) [])

/-- The data rows of a table block: the lines after the separator up to the
next blank line. -/
def dataRows (block : List GoString) : List GoString :=
  (block.drop ((headerBlock block).length + 1)).takeWhile (fun line => !isBlankLine line)

/-- The name-column width as the code takes it: the largest first word end
over the rows, where a word end counts only when white space follows the
word. -/
def nameWidth (rows : List GoString) : Nat :=
  rows.foldl (fun width row =>
    match wordEnds row 0 false with
    | [] => width
    | first :: _ => if first > width then first else width) 0

/-- The offset right after the first word of a line (0 when the line holds no
word), whether white space follows the word or the line ends there. -/
def firstTokenEnd (line : GoString) : Nat :=
  match (line.dropWhile isSpace).takeWhile (fun c => !isSpace c) with
  | [] => 0
  | word => (line.takeWhile isSpace).length + word.length

/-- The name-column width in the words of the specification: the maximum end
offset of the first token over the rows. -/
def maxFirstTokenEnd (rows : List GoString) : Nat :=
  rows.foldl (fun width row => max width (firstTokenEnd row)) 0

/-- Some data row splits into a number of fields different from the number of
header columns plus one. -/
def fieldCountMismatch (block : List GoString) : Prop :=
  ∃ row ∈ dataRows block,
    (fieldsFrom row ((nameWidth (dataRows block) :: columnBoundaries block) ++ [row.length])
      0).length ≠ ((columnBoundaries block).length + 1) + 1

/-- A table whose first data row is one word without white space after it. -/
def wideNameLines : List GoString :=
  ["    x ".toList, " ---".toList, "abcdef".toList, "ab 1".toList]

/-- The column names of a table block: each header line is cut at the column
boundaries and the pieces of one column are joined by single spaces, in line
order. -/
def headerNames (block : List GoString) : List GoString :=
  (headerBlock block).foldl (fun values line =>
    mergeHeaderLine values (fieldsFrom line (columnBoundaries block ++ [line.length]) 0)) []

/-- The fields of a data row: the name column, then one field per column. -/
def rowFields (block : List GoString) (row : GoString) : List GoString :=
  fieldsFrom row ((nameWidth (dataRows block) :: columnBoundaries block) ++ [row.length]) 0

/-- The name of a data row: the text of its name column. -/
def rowName (block : List GoString) (row : GoString) : GoString :=
  trimSpace ((rowFields block row).headD [])

/-- The cells of a data row, one per column. -/
def rowCells (block : List GoString) (row : GoString) : List GoString :=
  (rowFields block row).tail

/-- The cell is a non-negative decimal integer that fits the type `int`. -/
def isIntCell (cell : GoString) : Bool :=
  !cell.isEmpty && cell.all isDigit && decide (digitsValue cell < 2 ^ 63)

/-- The entries of one row: for each column the key
`pfx + rowName + " " + colName` with the integer in the cell. -/
def rowEntries (pfx : GoString) (block : List GoString) (row : GoString) :
    List (GoString × Int) :=
  List.zipWith (fun cell name => (pfx ++ rowName block row ++ [' '] ++ name, (digitsValue cell : Int)))
    (rowCells block row) (headerNames block)

/-- The entries of a table, row by row. -/
def tableEntries (pfx : GoString) (block : List GoString) : List (GoString × Int) :=
  (dataRows block).flatMap (rowEntries pfx block)

/-- A table with one row and two columns, the first cell holding a number of
twenty digits. -/
def hugeCellLines : List GoString :=
  ["                         Pss  Rss".toList,
   "                      ------  ---".toList,
   "Nat 99999999999999999999        7".toList,
   []]

/-- A table with two rows and two columns. -/
def twoByTwoLines : List GoString :=
  ["          Pss  Private".toList,
   "       ------   ------".toList,
   "Native  10468    10408".toList,
   "Dalvik   7308     7280".toList,
   []]

/-- The (row name, column name) pairs of a table, row by row. -/
def tablePairs (block : List GoString) : List (GoString × GoString) :=
  (dataRows block).flatMap (fun row => (headerNames block).map (fun name => (rowName block row, name)))

/-- The text of a cell after bracket stripping: every match of the bracket
pattern deleted, then the white space trimmed. -/
def stripCell (s : GoString) : GoString :=
  trimSpace (removeBrackets s)

/-- No `(` of the string has a `)` somewhere after it, that is, the bracket
pattern has no match. -/
def noBracketMatch : GoString → Prop
  | [] => True
  | c :: cs => (c = '(' → ')' ∉ cs) ∧ noBracketMatch cs

/-- The offsets in the words of the specification: the offset right after
every maximal run of runes that are not white space, whether white space
follows the run or the line ends there. `i` is the offset of the first rune of
the list and the flag tells whether the scan is inside a word. -/
def tokenEnds : GoString → Nat → Bool → List Nat
  | [], i, inWord => if inWord then [i] else []
  | c :: cs, i, true =>
    if isSpace c then i :: tokenEnds cs (i + 1) false else tokenEnds cs (i + 1) true
  | c :: cs, i, false =>
    if isSpace c then tokenEnds cs (i + 1) false else tokenEnds cs (i + 1) true

/-- The number of words (maximal runs of runes that are not white space) that
start in the string; the flag tells whether the string starts inside a word. -/
def countWords : GoString → Bool → Nat
  | [], _ => 0
  | c :: cs, inWord =>
    if isSpace c then countWords cs false
    else (if inWord then 0 else 1) + countWords cs true

/-- Does the string end in a word? The flag is the answer for the empty
string. -/
def endsInWord : GoString → Bool → Bool
  | [], inWord => inWord
  | c :: cs, _ => endsInWord cs (!isSpace c)

/-- The text of column `j` on a header line: the runes of the line from the
boundary before the column (the start of the line for the first column) up to
the boundary of the column (the end of the line for the last column), trimmed.
-/
def columnText (boundaries : List Nat) (line : GoString) (j : Nat) : GoString :=
  let start := if j = 0 then 0 else (boundaries ++ [line.length]).getD (j - 1) 0
  trimSpace ((line.drop start).take ((boundaries ++ [line.length]).getD j 0 - start))

/-- The pieces joined by single spaces, in order. -/
def joinSpaces : List GoString → GoString
  | [] => []
  | [x] => x
  | x :: y :: rest => x ++ [' '] ++ joinSpaces (y :: rest)

/-- Two header lines with `Foreign` above `Count`, ending at the same
offset. -/
def foreignCountHeader : List GoString :=
  ["      Foreign ".toList, "        Count ".toList]

/-! ## Theorems -/

/-- C1 (code defect): on lines that have a marker line and a non-empty
overview table, so that neither error condition holds, `Scan` returns neither
an error nor a map: the `App Summary` section holds a rune of two bytes and
`findIndizesOfEndingText` indexes the rune slice out of range. -/
theorem scan_panics_on_two_byte_rune :
    isMemoryOverviewIntro nonAsciiSectionLines 0 = (true, 1) ∧
    parseTable nonAsciiSectionLines 1 "MEM ".toList
      = Except.ok (some [("MEM Nat Pss".toList, 15)], 4) ∧
    findIndizesOfEndingText ['é'] = Except.error Panic.indexOutOfRange ∧
    Scan nonAsciiSectionLines = Except.error Panic.indexOutOfRange := by
  decide

/-- C2 (counterexample): on the marker line, the header block `Pss` /
`Private Dirty`, a separator, the rows `Native Heap` and `Dalvik Heap` and a
blank line, `Scan` does not return the four keys of the claim: the key
`MEM Native Heap Pss` is absent. -/
theorem scan_two_row_overview_not_four_keys :
    ¬ ∃ m, Scan twoRowOverviewLines = Except.ok (Except.ok m) ∧ m.length = 4 ∧
      m.get "MEM Native Heap Pss".toList = some 10468 ∧
      m.get "MEM Native Heap Private Dirty".toList = some 10408 ∧
      m.get "MEM Dalvik Heap Pss".toList = some 7308 ∧
      m.get "MEM Dalvik Heap Private Dirty".toList = some 7280 := by
  rintro ⟨m, hm, hlen, -⟩
  have h : Scan twoRowOverviewLines = Except.ok (Except.ok
      [("MEM Native Private Dirty".toList, 10408),
       ("MEM Dalvik Private Dirty".toList, 7280)]) := by decide
  rw [h] at hm
  injection hm with hm
  injection hm with hm
  subst hm
  simp at hlen

/-- C2 (amended): on those lines `Scan` returns no error and a map with
exactly two keys, `MEM Native Private Dirty` and `MEM Dalvik Private Dirty`:
the name column ends after the first word of the row names, so the first cell
of each row reads `Heap` followed by the number and yields no entry. -/
theorem scan_two_row_overview :
    Scan twoRowOverviewLines = Except.ok (Except.ok
      [("MEM Native Private Dirty".toList, 10408),
       ("MEM Dalvik Private Dirty".toList, 7280)]) := by
  decide

/-- C7 (code defect): on a fresh reader the first call `Trend(k, v1)` returns
zeros but leaves the calculator of `k` uninitialised (`getTrend` ran on the
nil outer variable), so the next call `Trend(k, v2)` returns `(0, 0, 0, 0)`
again, not `v2 - v1`, and only then seeds the slots, with `v2`. -/
theorem trend_second_call_returns_zero (adbpath k : GoString) (v1 v2 : Int) :
    (Trend (CreateReader adbpath) k v1).2 = (0, 0, 0, 0) ∧
    lookupTrend (Trend (CreateReader adbpath) k v1).1.trends k
      = some internalTrendCalculator.zero ∧
    (Trend (Trend (CreateReader adbpath) k v1).1 k v2).2 = (0, 0, 0, 0) ∧
    lookupTrend (Trend (Trend (CreateReader adbpath) k v1).1 k v2).1.trends k
      = some ⟨true, v2, v2, v2, v2⟩ := by
  simp [Trend, CreateReader, lookupTrend, storeTrend, getTrend, internalTrendCalculator.zero]

/-- C8: on an initialised calculator with slots `a1000, a100, a10, a1`,
`getTrend(v)` stores the new slot values and returns new minus old for each
slot, that is `(0.001*(v-a1000), 0.01*(v-a100), 0.1*(v-a10), v-a1)`; when all
slots hold `a` and `v > a` the fourth value is `v - a` and
`0 < d1000 < d100 < d10 < v - a`; when `v = a` all four values are 0. -/
theorem getTrend_initialised (a1000 a100 a10 a1 : ℚ) (v : Int) :
    getTrend (some ⟨true, a1000, a100, a10, a1⟩) v
      = (some ⟨true, a1000 * (999 / 1000) + (v : ℚ) * (1 / 1000),
            a100 * (99 / 100) + (v : ℚ) * (1 / 100),
            a10 * (9 / 10) + (v : ℚ) * (1 / 10), v⟩,
          ((1 / 1000) * ((v : ℚ) - a1000), (1 / 100) * ((v : ℚ) - a100),
            (1 / 10) * ((v : ℚ) - a10), (v : ℚ) - a1)) ∧
    (∀ a : ℚ, a < (v : ℚ) →
      ∃ t d1000 d100 d10, getTrend (some ⟨true, a, a, a, a⟩) v
          = (t, (d1000, d100, d10, (v : ℚ) - a)) ∧
        0 < d1000 ∧ d1000 < d100 ∧ d100 < d10 ∧ d10 < (v : ℚ) - a) ∧
    (getTrend (some ⟨true, v, v, v, v⟩) v).2 = (0, 0, 0, 0) := by
  refine ⟨?_, ?_, ?_⟩
  · simp only [getTrend, if_true, Prod.mk.injEq, true_and, and_self, and_true]
    refine ⟨?_, ?_, ?_⟩ <;> ring
  · intro a ha
    refine ⟨_, _, _, _, rfl, ?_, ?_, ?_, ?_⟩ <;> linarith
  · simp only [getTrend, if_true, Prod.mk.injEq]
    refine ⟨?_, ?_, ?_, ?_⟩ <;> ring

/-- C9 (code defect): an unrecognized line makes the loop of `Scan` advance
by two lines, so a label right after it is never compared: with `garbage`
before `Objects` the section is not parsed, without it the section is. -/
theorem scan_skips_label_after_unrecognized_line :
    Scan garbageBeforeLabelLines = Except.ok (Except.ok [("MEM Nat Pss".toList, 15)]) ∧
    Scan labelOnlyLines
      = Except.ok (Except.ok [("MEM Nat Pss".toList, 15), ("OBJECTS Views".toList, 10)]) := by
  decide

theorem isDigit_toNat {c : Char} (h : isDigit c = true) : 48 ≤ c.toNat ∧ c.toNat ≤ 57 := by
  simpa [isDigit] using h

theorem isSpace_of_isDigit {c : Char} (h : isDigit c = true) : isSpace c = false := by
  have h' := isDigit_toNat h
  simp only [isSpace, Bool.or_eq_false_iff, Bool.and_eq_false_iff, beq_eq_false_iff_ne,
    decide_eq_false_iff_not]
  omega

theorem ne_of_toNat_ne {c d : Char} (h : c.toNat ≠ d.toNat) : c ≠ d := fun e => h (e ▸ rfl)

theorem trimRight_of_no_space : ∀ s : GoString, (∀ c ∈ s, isSpace c = false) → trimRight s = s
  | [], _ => rfl
  | c :: cs, h => by
    have ih := trimRight_of_no_space cs (fun d hd => h d (List.mem_cons_of_mem _ hd))
    have hc := h c (List.mem_cons_self _ _)
    cases cs with
    | nil => simp [trimRight, hc]
    | cons d ds => rw [trimRight, ih]

theorem trimSpace_of_no_space (s : GoString) (h : ∀ c ∈ s, isSpace c = false) :
    trimSpace s = s := by
  unfold trimSpace
  have : s.dropWhile isSpace = s := by
    cases s with
    | nil => rfl
    | cons c cs => simp [List.dropWhile, h c (List.mem_cons_self _ _)]
  rw [this, trimRight_of_no_space s h]

theorem removeBracketsAux_of_no_paren :
    ∀ s : GoString, (∀ c ∈ s, c ≠ '(') → removeBracketsAux false s = s
  | [], _ => rfl
  | c :: cs, h => by
    have hc := h c (List.mem_cons_self _ _)
    rw [removeBracketsAux, if_neg (fun hh => hc hh.1),
      removeBracketsAux_of_no_paren cs (fun d hd => h d (List.mem_cons_of_mem _ hd))]

/-- On a non-empty string of digits `atoi` fails exactly on overflow. -/
theorem atoi_digits (ds : GoString) (hne : ds ≠ []) (hd : ∀ c ∈ ds, isDigit c = true) :
    atoi ds = if digitsValue ds < 2 ^ 63 then some (digitsValue ds : Int) else none := by
  have hall : ds.all isDigit = true := List.all_eq_true.mpr hd
  have hemp : ds.isEmpty = false := by cases ds <;> simp_all
  cases ds with
  | nil => exact absurd rfl hne
  | cons c cs =>
    have hc := isDigit_toNat (hd c (List.mem_cons_self _ _))
    have h1 : c ≠ '-' := ne_of_toNat_ne (by simp; omega)
    have h2 : c ≠ '+' := ne_of_toNat_ne (by simp; omega)
    unfold atoi
    split
    · rename_i heq; exact absurd (List.cons.inj heq).1 h1
    · rename_i heq; exact absurd (List.cons.inj heq).1 h2
    · simp [hall, hemp, intSize]

theorem keyValueMatchAt_digits {s name digits : GoString} {len : Nat}
    (h : keyValueMatchAt s = some (name, digits, len)) :
    digits ≠ [] ∧ ∀ c ∈ digits, isDigit c = true := by
  unfold keyValueMatchAt at h
  simp only at h
  split at h
  · exact absurd h (by simp)
  · split at h
    · split at h
      · exact absurd h (by simp)
      · rename_i r _ hne
        simp only [Option.some.injEq, Prod.mk.injEq] at h
        obtain ⟨-, hd, -⟩ := h
        subst hd
        refine ⟨fun e => hne (by simp [e]), fun c hc => ?_⟩
        exact (List.mem_takeWhile_imp hc)
    · exact absurd h (by simp)

theorem findAllKeyValueAux_digits : ∀ (s : GoString) (skip : Nat) (m : GoString × GoString),
    m ∈ findAllKeyValueAux skip s → m.2 ≠ [] ∧ ∀ c ∈ m.2, isDigit c = true
  | [], skip, m, h => by simp [findAllKeyValueAux] at h
  | c :: cs, skip + 1, m, h => by
    rw [findAllKeyValueAux] at h
    exact findAllKeyValueAux_digits cs skip m h
  | c :: cs, 0, m, h => by
    rw [findAllKeyValueAux] at h
    split at h
    · rename_i name digits len heq
      rcases List.mem_cons.mp h with h | h
      · subst h
        exact keyValueMatchAt_digits heq
      · exact findAllKeyValueAux_digits cs _ m h
    · exact findAllKeyValueAux_digits cs 0 m h

/-- The value a key/value match stores: the bracket removal and the trimming
leave the digits as they are. -/
theorem atoi_of_match_digits (ds : GoString) (hne : ds ≠ []) (hd : ∀ c ∈ ds, isDigit c = true) :
    atoi (trimSpace (removeBrackets ds))
      = if digitsValue ds < 2 ^ 63 then some (digitsValue ds : Int) else none := by
  have h1 : removeBrackets ds = ds :=
    removeBracketsAux_of_no_paren ds (fun c hc =>
      ne_of_toNat_ne (by have := isDigit_toNat (hd c hc); simp; omega))
  rw [h1, trimSpace_of_no_space ds (fun c hc => isSpace_of_isDigit (hd c hc)), atoi_digits ds hne hd]

theorem keyValueMatchLoop_eq (pfx : GoString) :
    ∀ (ms : List (GoString × GoString)) (result : MetricMap),
    (∀ m ∈ ms, m.2 ≠ [] ∧ ∀ c ∈ m.2, isDigit c = true) →
    keyValueMatchLoop pfx ms result
      = MetricMap.merge result (ms.filterMap (fun m =>
          if digitsValue m.2 < 2 ^ 63 then some (pfx ++ trimSpace m.1, (digitsValue m.2 : Int))
          else none))
  | [], result, _ => rfl
  | (name, digits) :: ms, result, h => by
    have hm := h (name, digits) (List.mem_cons_self _ _)
    have ih := fun r => keyValueMatchLoop_eq pfx ms r (fun m hm => h m (List.mem_cons_of_mem _ hm))
    rw [keyValueMatchLoop]
    simp only [atoi_of_match_digits digits hm.1 hm.2]
    by_cases hlt : digitsValue digits < 2 ^ 63
    · simp only [hlt, if_true, ih, List.filterMap_cons, MetricMap.merge, List.foldl_cons]
    · simp only [hlt, if_false, ih, List.filterMap_cons, MetricMap.merge]

theorem merge_append (dst a b : MetricMap) :
    MetricMap.merge dst (a ++ b) = MetricMap.merge (MetricMap.merge dst a) b := by
  simp [MetricMap.merge, List.foldl_append]

theorem keyValueLinesLoop_eq (pfx : GoString) :
    ∀ (lines : List GoString) (index : Nat) (result : MetricMap),
    keyValueLinesLoop pfx lines index result
      = (MetricMap.merge result ((keyValueRun lines).flatMap (keyValueEntries pfx)),
          index + (keyValueRun lines).length)
  | [], index, result => by simp [keyValueLinesLoop, keyValueRun, MetricMap.merge]
  | line :: rest, index, result => by
    rw [keyValueLinesLoop]
    by_cases hb : isBlankLine line = true
    · simp [hb, keyValueRun, MetricMap.merge]
    · by_cases hm : (findAllKeyValue line).length = 0
      · simp [hb, hm, keyValueRun, MetricMap.merge]
      · have hrun : keyValueRun (line :: rest) = line :: keyValueRun rest := by
          unfold keyValueRun
          exact List.takeWhile_cons_of_pos (by simp [hb, hm])
        rw [if_neg hb]
        simp only [hm, if_false]
        rw [keyValueLinesLoop_eq pfx rest, hrun, List.flatMap_cons, merge_append,
          keyValueMatchLoop_eq pfx (findAllKeyValue line) _
            (fun m hm => findAllKeyValueAux_digits line 0 m hm)]
        simp only [keyValueEntries, List.length_cons]
        congr 1
        omega

/-- C6 (counterexample): the line `Views: 99999999999999999999` holds a
key/value match, yet `findKeyValueMatches` adds no entry for it: the number
does not fit the type `int`, so `strconv.Atoi` fails. -/
theorem findKeyValueMatches_drops_huge_number :
    findAllKeyValue "Views: 99999999999999999999".toList
      = [("Views".toList, "99999999999999999999".toList)] ∧
    findKeyValueMatches hugeNumberLines 0 "OBJECTS ".toList = ([], 1) := by
  decide

/-- C6 (amended): after skipping leading blank lines `findKeyValueMatches`
adds `pfx + trimmed(name) -> number` for every key/value match whose number
fits the type `int` (is below `2^63`) on each consecutive line, and stops at
the first line that is blank or contains no match: it returns exactly the
entries of the lines before it and leaves the cursor on that line. For the
lines `Views: 10`, `ViewRootImpl: 2`, `garbage` and the empty line the result
is exactly `pfx+Views -> 10`, `pfx+ViewRootImpl -> 2` with the cursor at 2. -/
theorem findKeyValueMatches_partial (lines : List GoString) (cursor : Nat) (pfx : GoString) :
    findKeyValueMatches lines cursor pfx
      = (MetricMap.merge []
          ((keyValueRun (lines.drop (jumpOverEmptyLines lines cursor))).flatMap
            (keyValueEntries pfx)),
         jumpOverEmptyLines lines cursor
          + (keyValueRun (lines.drop (jumpOverEmptyLines lines cursor))).length) ∧
    findKeyValueMatches viewsLines 0 pfx
      = ([(pfx ++ "Views".toList, 10), (pfx ++ "ViewRootImpl".toList, 2)], 2) := by
  have key : ∀ ls c, findKeyValueMatches ls c pfx
      = (MetricMap.merge []
          ((keyValueRun (ls.drop (jumpOverEmptyLines ls c))).flatMap (keyValueEntries pfx)),
         jumpOverEmptyLines ls c + (keyValueRun (ls.drop (jumpOverEmptyLines ls c))).length) :=
    fun ls c => by rw [findKeyValueMatches, keyValueLinesLoop_eq]
  refine ⟨key lines cursor, ?_⟩
  have h0 : jumpOverEmptyLines viewsLines 0 = 0 := by decide
  have h1 : keyValueRun viewsLines = ["Views: 10".toList, "ViewRootImpl: 2".toList] := by decide
  have h2 : findAllKeyValue "Views: 10".toList = [("Views".toList, "10".toList)] := by decide
  have h3 : findAllKeyValue "ViewRootImpl: 2".toList = [("ViewRootImpl".toList, "2".toList)] := by
    decide
  have h4 : trimSpace "Views".toList = "Views".toList := by decide
  have h5 : trimSpace "ViewRootImpl".toList = "ViewRootImpl".toList := by decide
  have h6 : digitsValue "10".toList = 10 := by decide
  have h7 : digitsValue "2".toList = 2 := by decide
  have h8 : pfx ++ "Views".toList ≠ pfx ++ "ViewRootImpl".toList := by
    intro h
    exact absurd (List.append_cancel_left h) (by decide)
  have h9 : (10 : ℕ) < 2 ^ 63 := by norm_num
  have h10 : (2 : ℕ) < 2 ^ 63 := by norm_num
  rw [key, h0, List.drop_zero, h1]
  simp only [List.flatMap_cons, List.flatMap_nil, keyValueEntries, h2, h3, h4, h5, h6, h7,
    List.filterMap_cons, List.filterMap_nil, List.append_nil, List.length_cons, List.length_nil,
    if_pos h9, if_pos h10, List.singleton_append, MetricMap.merge, List.foldl_cons,
    List.foldl_nil, MetricMap.set, if_neg h8, Nat.cast_ofNat, zero_add]

theorem atoi_range {s : GoString} {v : Int} (h : atoi s = some v) :
    -(2 : Int) ^ 63 ≤ v ∧ v < (2 : Int) ^ 63 := by
  have aux : ∀ (ds : GoString) (neg : Bool),
      (if (ds.isEmpty || !ds.all isDigit) = true then none
        else if neg = true then
          if digitsValue ds ≤ 2 ^ (intSize - 1) then some (-(digitsValue ds : Int)) else none
        else if digitsValue ds < 2 ^ (intSize - 1) then some (digitsValue ds : Int) else none)
        = some v → -(2 : Int) ^ 63 ≤ v ∧ v < (2 : Int) ^ 63 := by
    intro ds neg h
    simp only [intSize] at h
    split at h
    · exact absurd h (by simp)
    · split at h
      · split at h
        · rename_i hle
          have hv : v = -(digitsValue ds : Int) := by simpa using h.symm
          have : (digitsValue ds : Int) ≤ 2 ^ 63 := by exact_mod_cast hle
          subst hv
          constructor <;> omega
        · exact absurd h (by simp)
      · split at h
        · rename_i hlt
          have hv : v = (digitsValue ds : Int) := by simpa using h.symm
          have : (digitsValue ds : Int) < 2 ^ 63 := by exact_mod_cast hlt
          subst hv
          constructor <;> omega
        · exact absurd h (by simp)
  unfold atoi at h
  split at h <;> exact aux _ _ h

theorem valuesInRange_set {m : MetricMap} (hm : ValuesInRange m) (k : GoString) {v : Int}
    (hv : -(2 : Int) ^ 63 ≤ v ∧ v < (2 : Int) ^ 63) : ValuesInRange (m.set k v) := by
  induction m with
  | nil =>
    intro kv hkv
    simp only [MetricMap.set, List.mem_singleton] at hkv
    subst hkv
    exact hv
  | cons e m ih =>
    obtain ⟨k', v'⟩ := e
    intro kv hkv
    simp only [MetricMap.set] at hkv
    split at hkv
    · rcases List.mem_cons.mp hkv with h | h
      · subst h; exact hv
      · exact hm kv (List.mem_cons_of_mem _ h)
    · rcases List.mem_cons.mp hkv with h | h
      · subst h; exact hm _ (List.mem_cons_self _ _)
      · exact ih (fun x hx => hm x (List.mem_cons_of_mem _ hx)) kv h

theorem mem_of_get {m : MetricMap} {k : GoString} {v : Int} (h : m.get k = some v) :
    (k, v) ∈ m := by
  induction m with
  | nil => simp [MetricMap.get] at h
  | cons e m ih =>
    obtain ⟨k', v'⟩ := e
    simp only [MetricMap.get] at h
    split at h
    · rename_i hk
      simp only [Option.some.injEq] at h
      subst hk; subst h
      exact List.mem_cons_self _ _
    · exact List.mem_cons_of_mem _ (ih h)

theorem cellsLoop_valuesInRange (pfx rowname : GoString) :
    ∀ (cells headers : List GoString) (result result' : MetricMap),
    ValuesInRange result → cellsLoop pfx rowname cells headers result = Except.ok result' →
    ValuesInRange result'
  | [], _, result, result', hr, h => by
    simp only [cellsLoop, Except.ok.injEq] at h
    exact h ▸ hr
  | cell :: cells, headers, result, result', hr, h => by
    unfold cellsLoop at h
    simp only at h
    split at h
    · split at h
      · exact absurd h (by simp)
      · split at h
        · rename_i hv
          exact cellsLoop_valuesInRange pfx rowname cells _ _ result'
            (valuesInRange_set hr _ (atoi_range hv)) h
        · exact cellsLoop_valuesInRange pfx rowname cells _ _ result' hr h
    · exact cellsLoop_valuesInRange pfx rowname cells _ _ result' hr h

theorem rowsLoop_valuesInRange (indizes : List Nat) (values : List GoString) (pfx : GoString) :
    ∀ (rows : List GoString) (index : Nat) (result m : MetricMap) (c : Nat),
    ValuesInRange result →
    rowsLoop indizes values pfx rows index result = Except.ok (some m, c) → ValuesInRange m
  | [], index, result, m, c, hr, h => by
    simp only [rowsLoop, Except.ok.injEq, Prod.mk.injEq, Option.some.injEq] at h
    exact h.1 ▸ hr
  | row :: rows, index, result, m, c, hr, h => by
    rw [rowsLoop] at h
    split at h
    · simp only [Except.ok.injEq, Prod.mk.injEq, Option.some.injEq] at h
      exact h.1 ▸ hr
    · split at h
      · exact absurd h (by simp)
      · split at h
        · exact absurd h (by simp)
        · split at h
          · exact rowsLoop_valuesInRange indizes values pfx rows _ result m c hr h
          · split at h
            · exact absurd h (by simp)
            · rename_i hcells
              exact rowsLoop_valuesInRange indizes values pfx rows _ _ m c
                (cellsLoop_valuesInRange pfx _ _ _ _ _ hr hcells) h

theorem parseTableBody_valuesInRange (lines : List GoString) (hs he index : Nat)
    (indizes : List Nat) (pfx : GoString) (m : MetricMap) (c : Nat)
    (h : parseTableBody lines hs he index indizes pfx = Except.ok (some m, c)) :
    ValuesInRange m := by
  unfold parseTableBody at h
  split at h
  · exact absurd h (by simp)
  · split at h
    · exact absurd h (by simp)
    · split at h
      · exact absurd h (by simp)
      · split at h
        · exact absurd h (by simp)
        · exact rowsLoop_valuesInRange _ _ _ _ _ _ m c (fun kv hkv => by simp at hkv) h

theorem parseTable_valuesInRange (lines : List GoString) (cursor : Nat) (pfx : GoString)
    (m : MetricMap) (c : Nat) (h : parseTable lines cursor pfx = Except.ok (some m, c)) :
    ValuesInRange m := by
  unfold parseTable at h
  simp only at h
  split at h
  · exact absurd h (by simp)
  · exact absurd h (by simp)
  · exact parseTableBody_valuesInRange _ _ _ _ _ _ m c h
  · exact parseTableBody_valuesInRange _ _ _ _ _ _ m c h

/-- C10 (counterexample): the cell `-5` is non-empty and is not a string of
decimal digits, yet `parseTable` produces an entry for it, with a negative
value. -/
theorem parseTable_negative_cell :
    parseTable negativeCellLines 0 "MEM ".toList
      = Except.ok (some [("MEM Nat Pss".toList, -5)], 3) := by
  decide

/-- C10 (amended): a table cell whose text, after removing bracketed
substrings and trimming, is non-empty produces an entry exactly when
`strconv.Atoi` accepts that text (an optional sign, then decimal digits, the
value in the range of `int`), with the value `Atoi` returns, and no entry
otherwise; every value in a map returned by `parseTable` lies in
`[-2^63, 2^63)`: the cell `+5` yields the entry 5 and the cell `-5` the
entry -5. -/
theorem parseTable_cell_entry :
    (∀ (pfx rowname cell header : GoString) (cells headers : List GoString)
        (result : MetricMap),
      byteLen (trimSpace (removeBrackets cell)) > 0 →
      cellsLoop pfx rowname (cell :: cells) (header :: headers) result
        = match atoi (trimSpace (removeBrackets cell)) with
          | some numbervalue =>
            cellsLoop pfx rowname cells headers
              (result.set (pfx ++ trimSpace rowname ++ [' '] ++ header) numbervalue)
          | none => cellsLoop pfx rowname cells headers result) ∧
    (∀ (lines : List GoString) (cursor : Nat) (pfx : GoString) (m : MetricMap) (c : Nat)
        (k : GoString) (v : Int),
      parseTable lines cursor pfx = Except.ok (some m, c) → m.get k = some v →
      -(2 : Int) ^ 63 ≤ v ∧ v < (2 : Int) ^ 63) ∧
    parseTable plusCellLines 0 "MEM ".toList
      = Except.ok (some [("MEM Nat Pss".toList, 5)], 3) ∧
    parseTable negativeCellLines 0 "MEM ".toList
      = Except.ok (some [("MEM Nat Pss".toList, -5)], 3) := by
  refine ⟨?_, ?_, by decide, by decide⟩
  · intro pfx rowname cell header cells headers result hlen
    rw [cellsLoop]
    simp only [hlen, if_true]
  · intro lines cursor pfx m c k v h hk
    exact parseTable_valuesInRange lines cursor pfx m c h (k, v) (mem_of_get hk)

theorem byteLen_of_isAscii : ∀ s : GoString, isAscii s = true → byteLen s = s.length
  | [], _ => rfl
  | c :: cs, h => by
    simp only [isAscii, List.all_cons, Bool.and_eq_true, decide_eq_true_eq] at h
    have ih := byteLen_of_isAscii cs (by simpa [isAscii] using h.2)
    have hc : runeLen c = 1 := by
      unfold runeLen
      rw [if_pos (by omega)]
    simp [byteLen, ih, hc, Nat.add_comm]

theorem findEndsLoop_eq (n : Nat) : ∀ (rest : GoString) (i : Nat) (findend : Bool)
    (output : List Nat), n = i + rest.length →
    findEndsLoop n rest i findend output = Except.ok (output ++ wordEnds rest i findend)
  | [], i, findend, output, h => by
    simp only [List.length_nil, Nat.add_zero] at h
    simp [findEndsLoop, wordEnds, h]
  | c :: cs, i, findend, output, h => by
    simp only [List.length_cons] at h
    have hlt : i < n := by omega
    have hn : n = (i + 1) + cs.length := by omega
    rw [findEndsLoop, if_pos hlt]
    cases findend <;> cases hs : isSpace c <;>
      simp [wordEnds, hs, findEndsLoop_eq n cs (i + 1) _ _ hn]

theorem findStartLoop_eq (n : Nat) : ∀ (rest : GoString) (i : Nat), n = i + rest.length →
    findStartLoop n rest i = Except.ok (wordEnds rest i false)
  | [], i, h => by
    simp only [List.length_nil, Nat.add_zero] at h
    simp [findStartLoop, wordEnds, h]
  | c :: cs, i, h => by
    have h' := h
    simp only [List.length_cons] at h'
    have hlt : i < n := by omega
    have hn : n = (i + 1) + cs.length := by omega
    rw [findStartLoop, if_pos hlt]
    cases hs : isSpace c
    · simp [findEndsLoop_eq n (c :: cs) i false [] h]
    · simp [wordEnds, hs, findStartLoop_eq n cs (i + 1) hn]

/-- On a line of single-byte runes `findIndizesOfEndingText` does not panic
and returns the word ends. -/
theorem findIndizesOfEndingText_of_isAscii (s : GoString) (h : isAscii s = true) :
    findIndizesOfEndingText s = Except.ok (wordEnds s 0 false) := by
  unfold findIndizesOfEndingText
  exact findStartLoop_eq _ s 0 (by simp [byteLen_of_isAscii s h])

theorem copyRunes_eq (n currentindex : Nat) : ∀ (rest : GoString) (j : Nat),
    rest.length = n - j →
    copyRunes n currentindex rest j = Except.ok (rest.take (currentindex - j))
  | [], j, h => by
    simp only [List.length_nil] at h
    have : ¬ (j < currentindex ∧ j < n) := by omega
    simp [copyRunes, this]
  | c :: cs, j, h => by
    simp only [List.length_cons] at h
    have hn : j < n := by omega
    rw [copyRunes]
    by_cases hc : j < currentindex
    · rw [if_pos ⟨hc, hn⟩, copyRunes_eq n currentindex cs (j + 1) (by omega)]
      have : currentindex - j = (currentindex - (j + 1)) + 1 := by omega
      simp [this]
    · rw [if_neg (fun hh => hc hh.1)]
      have : currentindex - j = 0 := by omega
      simp [this]

theorem splitLoop_eq (input : GoString) (h : byteLen input = input.length) :
    ∀ (indizes : List Nat) (lastindex : Nat),
    splitLoop input indizes lastindex = Except.ok (fieldsFrom input indizes lastindex)
  | [], _ => rfl
  | currentindex :: indizes, lastindex => by
    rw [splitLoop, copyRunes_eq _ _ _ _ (by simp [h])]
    simp only [splitLoop_eq input h indizes currentindex, fieldsFrom]

theorem fieldsFrom_length (input : GoString) : ∀ (indizes : List Nat) (lastindex : Nat),
    (fieldsFrom input indizes lastindex).length = indizes.length
  | [], _ => rfl
  | _ :: indizes, _ => by simp [fieldsFrom, fieldsFrom_length input indizes]

/-- On a line of single-byte runes `splitAt` does not panic and returns the
trimmed slices between the offsets. -/
theorem splitAt_of_isAscii (input : GoString) (h : isAscii input = true) (indizes : List Nat) :
    splitAt input indizes = Except.ok (fieldsFrom input (indizes ++ [input.length]) 0) := by
  unfold splitAt
  rw [splitLoop_eq input (byteLen_of_isAscii input h), byteLen_of_isAscii input h]

theorem get_set (m : MetricMap) (k k' : GoString) (v : Int) :
    (m.set k v).get k' = if k = k' then some v else m.get k' := by
  induction m with
  | nil => simp [MetricMap.set, MetricMap.get]
  | cons e m ih =>
    obtain ⟨k0, v0⟩ := e
    simp only [MetricMap.set]
    by_cases h0 : k0 = k
    · subst h0
      simp only [if_true, MetricMap.get]
      by_cases h1 : k0 = k' <;> simp [h1]
    · simp only [if_neg h0, MetricMap.get, ih]
      by_cases h1 : k0 = k'
      · subst h1
        simp [Ne.symm h0]
      · simp [h1]

theorem get_set_isSome {m : MetricMap} {k' : GoString} (k : GoString) (v : Int)
    (h : (m.get k').isSome = true) : ((m.set k v).get k').isSome = true := by
  rw [get_set]
  split <;> simp [h]

/-- The cell loop does not panic when no cell is left without a header, and
keeps every key the map already holds. -/
theorem cellsLoop_ok (pfx rowname : GoString) :
    ∀ (cells headers : List GoString) (result : MetricMap), cells.length ≤ headers.length →
    ∃ result', cellsLoop pfx rowname cells headers result = Except.ok result' ∧
      ∀ k, (result.get k).isSome = true → (result'.get k).isSome = true
  | [], _, result, _ => ⟨result, rfl, fun _ h => h⟩
  | cell :: cells, [], result, h => by simp at h
  | cell :: cells, header :: headers, result, h => by
    simp only [List.length_cons, Nat.add_le_add_iff_right] at h
    unfold cellsLoop
    simp only [List.drop_succ_cons, List.drop_zero]
    split
    · split
      · rename_i numbervalue _
        obtain ⟨r, hr, hk⟩ := cellsLoop_ok pfx rowname cells headers
          (result.set (pfx ++ trimSpace rowname ++ [' '] ++ header) numbervalue) h
        exact ⟨r, hr, fun k hk' => hk k (get_set_isSome _ _ hk')⟩
      · exact cellsLoop_ok pfx rowname cells headers result h
    · exact cellsLoop_ok pfx rowname cells headers result h

/-- The data-row loop on rows of single-byte runes: it does not panic, it
never takes the field-count return, it stops at the first blank line and it
keeps every key the map already holds. -/
theorem rowsLoop_ok (indizes : List Nat) (values : List GoString) (pfx : GoString)
    (hlen : values.length = indizes.length) :
    ∀ (rows : List GoString) (index : Nat) (result : MetricMap),
    (∀ r ∈ rows, isAscii r = true) →
    ∃ m, rowsLoop indizes values pfx rows index result
        = Except.ok (some m, index + (rows.takeWhile (fun r => !isBlankLine r)).length) ∧
      ∀ k, (result.get k).isSome = true → (m.get k).isSome = true
  | [], index, result, _ => ⟨result, rfl, fun _ h => h⟩
  | row :: rows, index, result, h => by
    have hrow := h row (List.mem_cons_self _ _)
    have hrest : ∀ r ∈ rows, isAscii r = true := fun r hr => h r (List.mem_cons_of_mem _ hr)
    rw [rowsLoop]
    by_cases hb : isBlankLine row = true
    · exact ⟨result, by simp [hb], fun _ h => h⟩
    · rw [if_neg hb, splitAt_of_isAscii row hrow]
      simp only [fieldsFrom_length, List.length_append, List.length_cons, List.length_nil,
        hlen, ne_eq, not_true_eq_false, if_false, Nat.zero_add]
      have htw : (List.takeWhile (fun r => !isBlankLine r) (row :: rows)).length
          = (List.takeWhile (fun r => !isBlankLine r) rows).length + 1 := by
        rw [List.takeWhile_cons_of_pos (by simpa using hb), List.length_cons]
      cases hf : fieldsFrom row (indizes ++ [row.length]) 0 with
      | nil =>
        have := fieldsFrom_length row (indizes ++ [row.length]) 0
        simp [hf] at this
      | cons rowname cells =>
        have hcl : cells.length ≤ values.length := by
          have := fieldsFrom_length row (indizes ++ [row.length]) 0
          simp [hf] at this
          omega
        obtain ⟨r1, hr1, hk1⟩ := cellsLoop_ok pfx rowname cells values result hcl
        obtain ⟨m, hm, hk⟩ := rowsLoop_ok indizes values pfx hlen rows (index + 1) r1 hrest
        refine ⟨m, ?_, fun k hk' => hk k (hk1 k hk')⟩
        simp only [hr1, hm, htw]
        rw [Nat.add_assoc, Nat.add_comm 1]

/-- C4 (counterexample): the last data row has one cell fewer than the header
has columns, and `parseTable` returns a non-nil map with three entries, two of
them from the earlier row. -/
theorem parseTable_short_row_not_discarded :
    parseTable shortRowLines 0 "MEM ".toList
      = Except.ok (some [("MEM Native Pss".toList, 10468), ("MEM Native Private".toList, 10408),
          ("MEM Dalvik Pss".toList, 7308)], 4) := by
  decide

/-- C4 (amended): a row with fewer cells is not a mismatch: it splits into as
many fields as every other row, the missing cells being empty. For rows of
single-byte runes, whatever the last data row holds, the data-row loop of
`parseTable` returns a non-nil map, and that map keeps every key entered by
the earlier rows. -/
theorem rowsLoop_keeps_earlier_rows (indizes : List Nat) (values : List GoString)
    (pfx : GoString) (rows : List GoString) (last : GoString) (index : Nat)
    (hlen : values.length = indizes.length)
    (hascii : ∀ r ∈ rows ++ [last], isAscii r = true)
    (hrows : ∀ r ∈ rows, isBlankLine r = false) :
    ∃ m m' c, rowsLoop indizes values pfx rows index [] = Except.ok (some m, index + rows.length) ∧
      rowsLoop indizes values pfx (rows ++ [last]) index [] = Except.ok (some m', c) ∧
      ∀ k, (m.get k).isSome = true → (m'.get k).isSome = true := by
  have gen : ∀ (rs : List GoString) (index : Nat) (result : MetricMap),
      (∀ r ∈ rs, isAscii r = true) → (∀ r ∈ rs, isBlankLine r = false) →
      ∃ m, rowsLoop indizes values pfx rs index result = Except.ok (some m, index + rs.length) ∧
        ∃ m' c, rowsLoop indizes values pfx (rs ++ [last]) index result = Except.ok (some m', c) ∧
          ∀ k, (m.get k).isSome = true → (m'.get k).isSome = true := by
    intro rs
    induction rs with
    | nil =>
      intro index result _ _
      obtain ⟨m', hm', hk⟩ := rowsLoop_ok indizes values pfx hlen [last] index result
        (fun r hr => hascii r (List.mem_append_right _ hr))
      exact ⟨result, rfl, m', _, hm', hk⟩
    | cons row rs ih =>
      intro index result ha hb
      have hrow := ha row (List.mem_cons_self _ _)
      have hnb : ¬ isBlankLine row = true := by simp [hb row (List.mem_cons_self _ _)]
      have hfl := fieldsFrom_length row (indizes ++ [row.length]) 0
      cases hf : fieldsFrom row (indizes ++ [row.length]) 0 with
      | nil => simp [hf] at hfl
      | cons rowname cells =>
        have hce : cells.length = indizes.length := by
          simpa [hf] using hfl
        have hcl : cells.length ≤ values.length := by omega
        obtain ⟨r1, hr1, -⟩ := cellsLoop_ok pfx rowname cells values result hcl
        obtain ⟨m, hm, m', c, hm', hk⟩ := ih (index + 1) r1
          (fun r hr => ha r (List.mem_cons_of_mem _ hr))
          (fun r hr => hb r (List.mem_cons_of_mem _ hr))
        refine ⟨m, ?_, m', c, ?_, hk⟩
        · rw [rowsLoop, if_neg hnb, splitAt_of_isAscii row hrow]
          simp only [fieldsFrom_length, List.length_append, List.length_cons, List.length_nil,
            hlen, ne_eq, not_true_eq_false, if_false, Nat.zero_add, hf, hr1, hm, hce]
          rw [Nat.add_assoc, Nat.add_comm 1]
        · rw [List.cons_append, rowsLoop, if_neg hnb, splitAt_of_isAscii row hrow]
          simp only [fieldsFrom_length, List.length_append, List.length_cons, List.length_nil,
            hlen, ne_eq, not_true_eq_false, if_false, Nat.zero_add, hf, hr1, hm', hce]
  obtain ⟨m, hm, m', c, hm', hk⟩ := gen rows index []
    (fun r hr => hascii r (List.mem_append_left _ hr)) hrows
  exact ⟨m, m', c, hm, hm', hk⟩

/-- C4 (witness): the rows of `shortRowLines`, split at the name width 6 and
the boundary 13. -/
theorem rowsLoop_keeps_earlier_rows_witness :
    ∃ m m' c, rowsLoop [6, 13] ["Pss".toList, "Private".toList] "MEM ".toList
        ["Native  10468    10408".toList] 2 [] = Except.ok (some m, 2 + 1) ∧
      rowsLoop [6, 13] ["Pss".toList, "Private".toList] "MEM ".toList
        (["Native  10468    10408".toList] ++ ["Dalvik   7308".toList]) 2 []
        = Except.ok (some m', c) ∧
      ∀ k, (m.get k).isSome = true → (m'.get k).isSome = true :=
  rowsLoop_keeps_earlier_rows [6, 13] ["Pss".toList, "Private".toList] "MEM ".toList
    ["Native  10468    10408".toList] "Dalvik   7308".toList 2 (by decide) (by decide)
    (by decide)

theorem headerLoop_eq : ∀ (block : List GoString) (index : Nat) (acc : List Nat),
    (∀ l ∈ block, isAscii l = true) →
    headerLoop block index acc = Except.ok
      (match block.drop (headerBlock block).length with
        | [] => HeaderScan.exhausted (index + (headerBlock block).length)
            ((headerBlock block).foldl (fun a l => addIndizes a (wordEnds l 0 false)) acc)
        | line :: _ =>
          if isBlankLine line then HeaderScan.blank (index + (headerBlock block).length)
          else HeaderScan.separator (index + (headerBlock block).length)
            ((headerBlock block).foldl (fun a l => addIndizes a (wordEnds l 0 false)) acc))
  | [], index, acc, _ => by simp [headerLoop, headerBlock]
  | line :: rest, index, acc, h => by
    have hl := h line (List.mem_cons_self _ _)
    have ih := fun i a => headerLoop_eq rest i a (fun l hl => h l (List.mem_cons_of_mem _ hl))
    rw [headerLoop]
    by_cases hb : isBlankLine line = true
    · have hhb : headerBlock (line :: rest) = [] := by
        unfold headerBlock
        exact List.takeWhile_cons_of_neg (by simp [hb])
      simp [hb, hhb]
    · by_cases hs : isHeaderSeparator line = true
      · have hhb : headerBlock (line :: rest) = [] := by
          unfold headerBlock
          exact List.takeWhile_cons_of_neg (by simp [hs])
        simp [hb, hs, hhb]
      · have hhb : headerBlock (line :: rest) = line :: headerBlock rest := by
          unfold headerBlock
          exact List.takeWhile_cons_of_pos (by simp [hb, hs])
        rw [if_neg hb, if_neg hs, findIndizesOfEndingText_of_isAscii line hl]
        simp only [ih, hhb, List.length_cons, List.drop_succ_cons, List.foldl_cons]
        have e : index + 1 + (headerBlock rest).length = index + ((headerBlock rest).length + 1) := by
          omega
        rw [e]

theorem mergeHeaderLine_length : ∀ (values split : List GoString),
    (mergeHeaderLine values split).length = max values.length split.length
  | values, [] => by simp [mergeHeaderLine]
  | [], s :: ss => by
    have := mergeHeaderLine_length [] ss
    simp [mergeHeaderLine, this]
  | v :: vs, s :: ss => by
    have := mergeHeaderLine_length vs ss
    simp [mergeHeaderLine, this, Nat.succ_max_succ]

theorem headerNamesLoop_ok (indizes : List Nat) : ∀ (header values : List GoString),
    (∀ l ∈ header, isAscii l = true) →
    ∃ values', headerNamesLoop indizes header values = Except.ok values' ∧
      values'.length = if header = [] then values.length
        else max values.length (indizes.length + 1)
  | [], values, _ => ⟨values, rfl, by simp⟩
  | line :: rest, values, h => by
    have hl := h line (List.mem_cons_self _ _)
    obtain ⟨v, hv, hlen⟩ := headerNamesLoop_ok indizes rest
      (mergeHeaderLine values (fieldsFrom line (indizes ++ [line.length]) 0))
      (fun l hl => h l (List.mem_cons_of_mem _ hl))
    refine ⟨v, ?_, ?_⟩
    · rw [headerNamesLoop, splitAt_of_isAscii line hl]
      exact hv
    · rw [hlen, mergeHeaderLine_length, fieldsFrom_length]
      simp only [List.length_append, List.length_cons, List.length_nil, Nat.zero_add]
      split <;> simp

theorem nameLengthLoop_eq : ∀ (block : List GoString) (namelength : Nat),
    (∀ l ∈ block, isAscii l = true) →
    nameLengthLoop block namelength = Except.ok
      ((block.takeWhile (fun line => !isBlankLine line)).foldl (fun width row =>
        match wordEnds row 0 false with
        | [] => width
        | first :: _ => if first > width then first else width) namelength)
  | [], _, _ => rfl
  | line :: rest, namelength, h => by
    have hl := h line (List.mem_cons_self _ _)
    have ih := fun w => nameLengthLoop_eq rest w (fun l hl => h l (List.mem_cons_of_mem _ hl))
    rw [nameLengthLoop]
    by_cases hb : isBlankLine line = true
    · rw [if_pos hb, List.takeWhile_cons_of_neg (by simp [hb])]
      rfl
    · rw [if_neg hb, findIndizesOfEndingText_of_isAscii line hl,
        List.takeWhile_cons_of_pos (by simp [hb]), List.foldl_cons]
      cases wordEnds line 0 false <;> simp only [ih]

theorem sortIndizes_eq_nil {l : List Nat} : sortIndizes l = [] ↔ l = [] := by
  unfold sortIndizes
  constructor
  · intro h
    have := List.length_insertionSort (· ≤ ·) l
    rw [h] at this
    exact List.length_eq_zero.mp this.symm
  · intro h
    subst h
    rfl

theorem fieldCountMismatch_false (block : List GoString) : ¬ fieldCountMismatch block := by
  rintro ⟨row, -, h⟩
  apply h
  rw [fieldsFrom_length]
  simp

theorem headerBlock_ne_nil_of_boundaries {block : List GoString}
    (h : (headerBlock block).foldl (fun acc line => addIndizes acc (wordEnds line 0 false)) []
      ≠ []) : (headerBlock block).length ≠ 0 ∧ block ≠ [] := by
  constructor
  · intro h0
    rw [List.length_eq_zero.mp h0] at h
    exact h rfl
  · intro hb
    subst hb
    exact h rfl

/-- The part of `parseTable` after a separator line, on lines of single-byte
runes. -/
theorem parseTableBody_separator (lines : List GoString) (start : Nat) (pfx : GoString)
    (hascii : ∀ l ∈ lines, isAscii l = true) :
    ∃ r c, parseTableBody lines start (start + (headerBlock (lines.drop start)).length)
        (start + (headerBlock (lines.drop start)).length + 1)
        ((headerBlock (lines.drop start)).foldl
          (fun acc line => addIndizes acc (wordEnds line 0 false)) []) pfx = Except.ok (r, c) ∧
      (r = none ↔ (columnBoundaries (lines.drop start) = [] ∨
        nameWidth (dataRows (lines.drop start)) = 0 ∨
        ∃ b, (columnBoundaries (lines.drop start)).head? = some b ∧
          b ≤ nameWidth (dataRows (lines.drop start)))) := by
  have hblock : ∀ n, ∀ l ∈ lines.drop n, isAscii l = true :=
    fun n l hl => hascii l (List.mem_of_mem_drop hl)
  unfold parseTableBody
  have hcb : sortIndizes ((headerBlock (lines.drop start)).foldl
      (fun acc line => addIndizes acc (wordEnds line 0 false)) [])
      = columnBoundaries (lines.drop start) := rfl
  rw [hcb]
  cases hB : columnBoundaries (lines.drop start) with
  | nil => exact ⟨none, _, rfl, by simp⟩
  | cons first sorted =>
    have hne : (headerBlock (lines.drop start)).foldl
        (fun acc line => addIndizes acc (wordEnds line 0 false)) [] ≠ [] := by
      intro h
      have := sortIndizes_eq_nil.mpr h
      rw [hcb, hB] at this
      exact absurd this (by simp)
    obtain ⟨hlen0, hbne⟩ := headerBlock_ne_nil_of_boundaries hne
    have hsub : start + (headerBlock (lines.drop start)).length - start
        = (headerBlock (lines.drop start)).length := by omega
    obtain ⟨values, hvalues, hvlen⟩ := headerNamesLoop_ok (first :: sorted)
      ((lines.drop start).take (headerBlock (lines.drop start)).length) []
      (fun l hl => hblock start l (List.mem_of_mem_take hl))
    have htake : (lines.drop start).take (headerBlock (lines.drop start)).length ≠ [] := by
      rw [Ne, List.take_eq_nil_iff]
      exact fun h => h.elim hlen0 hbne
    rw [if_neg htake] at hvlen
    simp only [List.length_nil, List.length_cons, Nat.zero_max] at hvlen
    have hrows : List.drop (start + (headerBlock (lines.drop start)).length + 1) lines
        = (lines.drop start).drop ((headerBlock (lines.drop start)).length + 1) := by
      rw [List.drop_drop, Nat.add_assoc]
    have hname := nameLengthLoop_eq
      ((lines.drop start).drop ((headerBlock (lines.drop start)).length + 1)) 0
      (fun l hl => hblock start l (List.mem_of_mem_drop hl))
    have hw : (((lines.drop start).drop ((headerBlock (lines.drop start)).length + 1)).takeWhile
        (fun line => !isBlankLine line)).foldl (fun width row =>
          match wordEnds row 0 false with
          | [] => width
          | first :: _ => if first > width then first else width) 0
        = nameWidth (dataRows (lines.drop start)) := rfl
    rw [hw] at hname
    simp only [hsub, hvalues, hrows, hname]
    by_cases hcond : nameWidth (dataRows (lines.drop start)) = 0 ∨
        nameWidth (dataRows (lines.drop start)) ≥ first
    · refine ⟨none, _, by rw [if_pos hcond], ?_⟩
      simp only [true_iff]
      rcases hcond with h | h
      · exact Or.inr (Or.inl h)
      · exact Or.inr (Or.inr ⟨first, rfl, h⟩)
    · obtain ⟨m, hm, -⟩ := rowsLoop_ok
        (nameWidth (dataRows (lines.drop start)) :: first :: sorted) values pfx
        (by simp [hvlen])
        ((lines.drop start).drop ((headerBlock (lines.drop start)).length + 1))
        (start + (headerBlock (lines.drop start)).length + 1) []
        (fun l hl => hblock start l (List.mem_of_mem_drop hl))
      refine ⟨some m, _, by rw [if_neg hcond]; exact hm, ?_⟩
      simp only [false_iff, reduceCtorEq]
      rintro (h | h | ⟨b, hb, hle⟩)
      · exact absurd h (by simp)
      · exact hcond (Or.inl h)
      · simp only [List.head?_cons, Option.some.injEq] at hb
        exact hcond (Or.inr (hb ▸ hle))

/-- C5 (counterexample): a separator is found, the boundaries are `[5]` and
the maximum end offset of the first token over the data rows is 6, which is
not below the first boundary, yet `parseTable` returns a non-nil map: the
first row is a single word with no white space after it and does not count
for the name width the code computes, which is 2. -/
theorem parseTable_wide_name_not_nil :
    separatorFound (tableBlock wideNameLines 0) = true ∧
    columnBoundaries (tableBlock wideNameLines 0) = [5] ∧
    maxFirstTokenEnd (dataRows (tableBlock wideNameLines 0)) = 6 ∧
    nameWidth (dataRows (tableBlock wideNameLines 0)) = 2 ∧
    parseTable wideNameLines 0 [] = Except.ok (some [("ab x".toList, 1)], 4) := by
  decide

/-- C5 (amended): on lines of single-byte runes `parseTable` returns, and it
returns nil if and only if, after skipping leading blank lines, no separator
line occurs before the first blank line or the end of input, or the union of
the column boundaries of the header lines is empty, or the name-column width
is zero or not below the first column boundary, or some data row splits into
a number of fields different from the header-column count plus one; the
name-column width being the largest first word end over the data lines up to
the next blank line, where a word end counts only when white space follows the
word. In every other case the result is a non-nil map. -/
theorem parseTable_nil_iff (lines : List GoString) (cursor : Nat) (pfx : GoString)
    (hascii : ∀ l ∈ lines, isAscii l = true) :
    ∃ r c, parseTable lines cursor pfx = Except.ok (r, c) ∧
      (r = none ↔ (separatorFound (tableBlock lines cursor) = false ∨
        columnBoundaries (tableBlock lines cursor) = [] ∨
        nameWidth (dataRows (tableBlock lines cursor)) = 0 ∨
        (∃ b, (columnBoundaries (tableBlock lines cursor)).head? = some b ∧
          b ≤ nameWidth (dataRows (tableBlock lines cursor))) ∨
        fieldCountMismatch (tableBlock lines cursor))) := by
  have hblock : ∀ l ∈ tableBlock lines cursor, isAscii l = true :=
    fun l hl => hascii l (List.mem_of_mem_drop hl)
  unfold parseTable
  simp only
  rw [show lines.drop (jumpOverEmptyLines lines cursor) = tableBlock lines cursor from rfl,
    headerLoop_eq (tableBlock lines cursor) _ [] hblock]
  cases hd : (tableBlock lines cursor).drop (headerBlock (tableBlock lines cursor)).length with
  | nil =>
    have hsep : separatorFound (tableBlock lines cursor) = false := by
      simp [separatorFound, hd]
    simp only [hsep, true_or, iff_true]
    unfold parseTableBody
    split
    · exact ⟨none, _, rfl, rfl⟩
    · have hrows : List.drop (jumpOverEmptyLines lines cursor
          + (headerBlock (tableBlock lines cursor)).length) lines = [] := by
        rw [← hd, tableBlock, List.drop_drop]
      simp only [Nat.sub_self, List.take_zero, headerNamesLoop, hrows, nameLengthLoop,
        true_or, if_true]
      exact ⟨none, _, rfl, rfl⟩
  | cons line rest =>
    by_cases hb : isBlankLine line = true
    · have hsep : separatorFound (tableBlock lines cursor) = false := by
        simp [separatorFound, hd, hb]
      simp only [hsep, true_or, iff_true, hb, if_true]
      exact ⟨none, _, rfl, rfl⟩
    · have hsep : separatorFound (tableBlock lines cursor) = true := by
        simp [separatorFound, hd, hb]
      simp only [hb, if_false]
      obtain ⟨r, c, hr, hiff⟩ := parseTableBody_separator lines
        (jumpOverEmptyLines lines cursor) pfx hascii
      refine ⟨r, c, hr, ?_⟩
      rw [hiff]
      have hsep' : ¬ separatorFound (tableBlock lines cursor) = false := by simp [hsep]
      have hm := fieldCountMismatch_false (tableBlock lines cursor)
      have e : tableBlock lines cursor = lines.drop (jumpOverEmptyLines lines cursor) := rfl
      rw [e] at hsep' hm ⊢
      constructor
      · rintro (h | h | h)
        · exact Or.inr (Or.inl h)
        · exact Or.inr (Or.inr (Or.inl h))
        · exact Or.inr (Or.inr (Or.inr (Or.inl h)))
      · rintro (h | h | h | h | h)
        · exact absurd h hsep'
        · exact Or.inl h
        · exact Or.inr (Or.inl h)
        · exact Or.inr (Or.inr h)
        · exact absurd h hm

/-- C5 (witness): the lines of `shortRowLines` are single-byte runes. -/
theorem parseTable_nil_iff_witness :
    ∃ r c, parseTable shortRowLines 0 "MEM ".toList = Except.ok (r, c) ∧
      (r = none ↔ (separatorFound (tableBlock shortRowLines 0) = false ∨
        columnBoundaries (tableBlock shortRowLines 0) = [] ∨
        nameWidth (dataRows (tableBlock shortRowLines 0)) = 0 ∨
        (∃ b, (columnBoundaries (tableBlock shortRowLines 0)).head? = some b ∧
          b ≤ nameWidth (dataRows (tableBlock shortRowLines 0))) ∨
        fieldCountMismatch (tableBlock shortRowLines 0))) :=
  parseTable_nil_iff shortRowLines 0 "MEM ".toList (by decide)

theorem headerNamesLoop_eq (indizes : List Nat) : ∀ (header values : List GoString),
    (∀ l ∈ header, isAscii l = true) →
    headerNamesLoop indizes header values = Except.ok (header.foldl (fun values line =>
      mergeHeaderLine values (fieldsFrom line (indizes ++ [line.length]) 0)) values)
  | [], _, _ => rfl
  | line :: rest, values, h => by
    rw [headerNamesLoop, splitAt_of_isAscii line (h line (List.mem_cons_self _ _)),
      List.foldl_cons]
    exact headerNamesLoop_eq indizes rest _ (fun l hl => h l (List.mem_cons_of_mem _ hl))

theorem take_headerBlock (block : List GoString) :
    block.take (headerBlock block).length = headerBlock block :=
  (List.prefix_iff_eq_take.mp (List.takeWhile_prefix _)).symm

theorem isIntCell_spec {cell : GoString} (h : isIntCell cell = true) :
    cell ≠ [] ∧ (∀ c ∈ cell, isDigit c = true) ∧ digitsValue cell < 2 ^ 63 := by
  simp only [isIntCell, Bool.and_eq_true, Bool.not_eq_true', decide_eq_true_eq,
    List.all_eq_true] at h
  refine ⟨?_, h.1.2, h.2⟩
  intro e
  simp [e] at h

theorem removeBrackets_trim_of_digits (ds : GoString) (hd : ∀ c ∈ ds, isDigit c = true) :
    trimSpace (removeBrackets ds) = ds := by
  have h1 : removeBrackets ds = ds :=
    removeBracketsAux_of_no_paren ds (fun c hc =>
      ne_of_toNat_ne (by have := isDigit_toNat (hd c hc); simp; omega))
  rw [h1, trimSpace_of_no_space ds (fun c hc => isSpace_of_isDigit (hd c hc))]

theorem byteLen_pos_of_ne_nil : ∀ {s : GoString}, s ≠ [] → byteLen s > 0
  | [], h => absurd rfl h
  | c :: cs, _ => by
    have : runeLen c > 0 := by
      unfold runeLen
      split
      · omega
      · split
        · omega
        · split <;> omega
    simp only [byteLen]
    omega

/-- The cell loop on cells that all hold an integer of the type `int`. -/
theorem cellsLoop_int (pfx rowname : GoString) :
    ∀ (cells headers : List GoString) (result : MetricMap),
    (∀ cell ∈ cells, isIntCell cell = true) → cells.length ≤ headers.length →
    cellsLoop pfx rowname cells headers result = Except.ok (MetricMap.merge result
      (List.zipWith (fun cell name =>
        (pfx ++ trimSpace rowname ++ [' '] ++ name, (digitsValue cell : Int))) cells headers))
  | [], _, result, _, _ => by simp [cellsLoop, MetricMap.merge]
  | cell :: cells, [], result, _, h => by simp at h
  | cell :: cells, header :: headers, result, hc, h => by
    simp only [List.length_cons, Nat.add_le_add_iff_right] at h
    obtain ⟨hne, hd, hlt⟩ := isIntCell_spec (hc cell (List.mem_cons_self _ _))
    have hv : trimSpace (removeBrackets cell) = cell := removeBrackets_trim_of_digits cell hd
    have hat : atoi cell = some (digitsValue cell : Int) := by
      rw [atoi_digits cell hne hd, if_pos hlt]
    unfold cellsLoop
    simp only [hv, byteLen_pos_of_ne_nil hne, if_true, hat, List.zipWith_cons_cons,
      MetricMap.merge, List.foldl_cons]
    exact cellsLoop_int pfx rowname cells headers _
      (fun c hcm => hc c (List.mem_cons_of_mem _ hcm)) h

/-- The data-row loop on rows of single-byte runes whose cells all hold an
integer of the type `int`. -/
theorem rowsLoop_int (indizes : List Nat) (values : List GoString) (pfx : GoString)
    (hlen : values.length = indizes.length) :
    ∀ (rows : List GoString) (index : Nat) (result : MetricMap),
    (∀ r ∈ rows, isAscii r = true) →
    (∀ r ∈ rows.takeWhile (fun r => !isBlankLine r),
      ∀ cell ∈ (fieldsFrom r (indizes ++ [r.length]) 0).tail, isIntCell cell = true) →
    rowsLoop indizes values pfx rows index result
      = Except.ok (some (MetricMap.merge result
          ((rows.takeWhile (fun r => !isBlankLine r)).flatMap (fun r =>
            List.zipWith (fun cell name =>
              (pfx ++ trimSpace ((fieldsFrom r (indizes ++ [r.length]) 0).headD []) ++ [' '] ++ name,
                (digitsValue cell : Int)))
              (fieldsFrom r (indizes ++ [r.length]) 0).tail values))),
        index + (rows.takeWhile (fun r => !isBlankLine r)).length)
  | [], index, result, _, _ => by simp [rowsLoop, MetricMap.merge]
  | row :: rows, index, result, ha, hc => by
    have hrow := ha row (List.mem_cons_self _ _)
    rw [rowsLoop]
    by_cases hb : isBlankLine row = true
    · rw [if_pos hb, List.takeWhile_cons_of_neg (by simp [hb])]
      simp [MetricMap.merge]
    · have htw : List.takeWhile (fun r => !isBlankLine r) (row :: rows)
          = row :: List.takeWhile (fun r => !isBlankLine r) rows :=
        List.takeWhile_cons_of_pos (by simpa using hb)
      rw [htw] at hc
      rw [if_neg hb, splitAt_of_isAscii row hrow, htw]
      have hfl := fieldsFrom_length row (indizes ++ [row.length]) 0
      cases hf : fieldsFrom row (indizes ++ [row.length]) 0 with
      | nil => simp [hf] at hfl
      | cons rowname cells =>
        have hce : cells.length = indizes.length := by simpa [hf] using hfl
        have hcells : ∀ cell ∈ cells, isIntCell cell = true := by
          have := hc row (List.mem_cons_self _ _)
          simpa [hf] using this
        have ih := rowsLoop_int indizes values pfx hlen rows (index + 1)
          (MetricMap.merge result (List.zipWith (fun cell name =>
            (pfx ++ trimSpace rowname ++ [' '] ++ name, (digitsValue cell : Int))) cells values))
          (fun r hr => ha r (List.mem_cons_of_mem _ hr))
          (fun r hr => hc r (List.mem_cons_of_mem _ hr))
        simp only [List.length_cons, hce, hlen, ne_eq, not_true_eq_false, if_false,
          cellsLoop_int pfx rowname cells values result hcells (by omega), ih,
          List.flatMap_cons, merge_append, hf, List.headD_cons, List.tail_cons]
        rw [Nat.add_assoc, Nat.add_comm 1]

theorem set_of_not_mem : ∀ (m : MetricMap) (k : GoString) (v : Int),
    k ∉ m.map Prod.fst → m.set k v = m ++ [(k, v)]
  | [], _, _, _ => rfl
  | (k', v') :: m, k, v, h => by
    simp only [List.map_cons, List.mem_cons, not_or] at h
    rw [MetricMap.set, if_neg (Ne.symm h.1), set_of_not_mem m k v h.2]
    rfl

theorem merge_of_nodup : ∀ (src dst : MetricMap), ((dst ++ src).map Prod.fst).Nodup →
    MetricMap.merge dst src = dst ++ src
  | [], dst, _ => by simp [MetricMap.merge]
  | (k, v) :: src, dst, h => by
    have hk : k ∉ dst.map Prod.fst := by
      intro hk
      simp only [List.map_append, List.map_cons] at h
      have := (List.nodup_append.mp h).2.2
      exact this hk (List.mem_cons_self _ _)
    have h' : (((dst ++ [(k, v)]) ++ src).map Prod.fst).Nodup := by
      simpa using h
    have := merge_of_nodup src (dst ++ [(k, v)]) h'
    simp only [MetricMap.merge, List.foldl_cons] at this ⊢
    rw [set_of_not_mem dst k v hk, this]
    simp

theorem get_of_mem_nodup : ∀ (m : MetricMap) (k : GoString) (v : Int),
    (m.map Prod.fst).Nodup → (k, v) ∈ m → m.get k = some v
  | [], _, _, _, h => by simp at h
  | (k', v') :: m, k, v, hn, h => by
    simp only [List.map_cons, List.nodup_cons] at hn
    rcases List.mem_cons.mp h with h | h
    · simp only [Prod.mk.injEq] at h
      simp [MetricMap.get, h.1, h.2]
    · have hne : k' ≠ k := by
        intro e
        subst e
        exact hn.1 (List.mem_map_of_mem Prod.fst h)
      rw [MetricMap.get, if_neg hne]
      exact get_of_mem_nodup m k v hn.2 h

theorem headerNames_length (block : List GoString) (hascii : ∀ l ∈ block, isAscii l = true)
    (hB : columnBoundaries block ≠ []) :
    (headerNames block).length = (columnBoundaries block).length + 1 := by
  have hne : (headerBlock block).foldl
      (fun acc line => addIndizes acc (wordEnds line 0 false)) [] ≠ [] :=
    fun h => hB (sortIndizes_eq_nil.mpr h)
  obtain ⟨hlen0, -⟩ := headerBlock_ne_nil_of_boundaries hne
  have hh : ∀ l ∈ headerBlock block, isAscii l = true :=
    fun l hl => hascii l ((List.takeWhile_prefix _).subset hl)
  obtain ⟨values, hvalues, hvlen⟩ := headerNamesLoop_ok (columnBoundaries block)
    (headerBlock block) [] hh
  rw [headerNamesLoop_eq _ _ _ hh] at hvalues
  have hv : headerNames block = values := by
    injection hvalues
  rw [hv, hvlen, if_neg (fun h => hlen0 (by simp [h]))]
  simp

/-- The part of `parseTable` after a separator line, when the boundaries are
not empty and the name width is positive and below the first boundary: the
data-row loop runs with the name width put before the boundaries. -/
theorem parseTableBody_rows (lines : List GoString) (start : Nat) (pfx : GoString)
    (hascii : ∀ l ∈ lines, isAscii l = true)
    (hw : 0 < nameWidth (dataRows (lines.drop start)))
    (hwb : ∃ b, (columnBoundaries (lines.drop start)).head? = some b ∧
      nameWidth (dataRows (lines.drop start)) < b) :
    parseTableBody lines start (start + (headerBlock (lines.drop start)).length)
        (start + (headerBlock (lines.drop start)).length + 1)
        ((headerBlock (lines.drop start)).foldl
          (fun acc line => addIndizes acc (wordEnds line 0 false)) []) pfx
      = rowsLoop (nameWidth (dataRows (lines.drop start)) :: columnBoundaries (lines.drop start))
          (headerNames (lines.drop start)) pfx
          ((lines.drop start).drop ((headerBlock (lines.drop start)).length + 1))
          (start + (headerBlock (lines.drop start)).length + 1) [] := by
  have hblock : ∀ n, ∀ l ∈ lines.drop n, isAscii l = true :=
    fun n l hl => hascii l (List.mem_of_mem_drop hl)
  obtain ⟨b, hb, hlt⟩ := hwb
  unfold parseTableBody
  have hcb : sortIndizes ((headerBlock (lines.drop start)).foldl
      (fun acc line => addIndizes acc (wordEnds line 0 false)) [])
      = columnBoundaries (lines.drop start) := rfl
  rw [hcb]
  have hnames : headerNames (lines.drop start) = (headerBlock (lines.drop start)).foldl
      (fun values line => mergeHeaderLine values
        (fieldsFrom line (columnBoundaries (lines.drop start) ++ [line.length]) 0)) [] := rfl
  rw [hnames]
  cases hB : columnBoundaries (lines.drop start) with
  | nil => simp [hB] at hb
  | cons first sorted =>
    simp only [hB, List.head?_cons, Option.some.injEq] at hb
    subst hb
    have hsub : start + (headerBlock (lines.drop start)).length - start
        = (headerBlock (lines.drop start)).length := by omega
    have hrows : List.drop (start + (headerBlock (lines.drop start)).length + 1) lines
        = (lines.drop start).drop ((headerBlock (lines.drop start)).length + 1) := by
      rw [List.drop_drop, Nat.add_assoc]
    have hname := nameLengthLoop_eq
      ((lines.drop start).drop ((headerBlock (lines.drop start)).length + 1)) 0
      (fun l hl => hblock start l (List.mem_of_mem_drop hl))
    have hwd : (((lines.drop start).drop ((headerBlock (lines.drop start)).length + 1)).takeWhile
        (fun line => !isBlankLine line)).foldl (fun width row =>
          match wordEnds row 0 false with
          | [] => width
          | first :: _ => if first > width then first else width) 0
        = nameWidth (dataRows (lines.drop start)) := rfl
    rw [hwd] at hname
    have hcond : ¬ (nameWidth (dataRows (lines.drop start)) = 0 ∨
        nameWidth (dataRows (lines.drop start)) ≥ first) := by omega
    simp only [hsub, take_headerBlock, hrows, hname, if_neg hcond]
    rw [headerNamesLoop_eq (first :: sorted) (headerBlock (lines.drop start)) []
      (fun l hl => hblock start l ((List.takeWhile_prefix _).subset hl))]

theorem length_flatMap_const {α β : Type} (f : α → List β) (n : Nat) :
    ∀ (l : List α), (∀ a ∈ l, (f a).length = n) → (l.flatMap f).length = n * l.length
  | [], _ => by simp
  | a :: l, h => by
    rw [List.flatMap_cons, List.length_append, h a (List.mem_cons_self _ _),
      length_flatMap_const f n l (fun x hx => h x (List.mem_cons_of_mem _ hx)),
      List.length_cons, Nat.mul_succ, Nat.add_comm]

/-- C3 (counterexample): a table with one row and two columns whose cells are
the non-negative decimal integers `99999999999999999999` and `7`, each inside
the span of its column, yields one entry, not two: the first number does not
fit the type `int` and `strconv.Atoi` rejects it. -/
theorem parseTable_huge_cell_dropped :
    headerNames (tableBlock hugeCellLines 0) = ["Pss".toList, "Rss".toList] ∧
    dataRows (tableBlock hugeCellLines 0) = ["Nat 99999999999999999999        7".toList] ∧
    rowName (tableBlock hugeCellLines 0) "Nat 99999999999999999999        7".toList
      = "Nat".toList ∧
    rowCells (tableBlock hugeCellLines 0) "Nat 99999999999999999999        7".toList
      = ["99999999999999999999".toList, "7".toList] ∧
    parseTable hugeCellLines 0 "MEM ".toList
      = Except.ok (some [("MEM Nat Rss".toList, 7)], 3) := by
  decide

/-- The run of `parseTable` on a well-formed table whose keys are distinct:
the result holds exactly the entries of the table. -/
theorem parseTable_of_distinct_keys (lines : List GoString) (cursor : Nat) (pfx : GoString)
    (hascii : ∀ l ∈ lines, isAscii l = true)
    (hsep : separatorFound (tableBlock lines cursor) = true)
    (hw : 0 < nameWidth (dataRows (tableBlock lines cursor)))
    (hwb : ∃ b, (columnBoundaries (tableBlock lines cursor)).head? = some b ∧
      nameWidth (dataRows (tableBlock lines cursor)) < b)
    (hcells : ∀ row ∈ dataRows (tableBlock lines cursor),
      ∀ cell ∈ rowCells (tableBlock lines cursor) row, isIntCell cell = true)
    (hkeys : ((tableEntries pfx (tableBlock lines cursor)).map Prod.fst).Nodup) :
    ∃ m c, parseTable lines cursor pfx = Except.ok (some m, c) ∧
      (headerNames (tableBlock lines cursor)).length
        = (columnBoundaries (tableBlock lines cursor)).length + 1 ∧
      m.length = (headerNames (tableBlock lines cursor)).length
        * (dataRows (tableBlock lines cursor)).length ∧
      ∀ row ∈ dataRows (tableBlock lines cursor),
        (rowCells (tableBlock lines cursor) row).length
          = (headerNames (tableBlock lines cursor)).length ∧
        ∀ (j : Nat) (cell name : GoString),
          (rowCells (tableBlock lines cursor) row)[j]? = some cell →
          (headerNames (tableBlock lines cursor))[j]? = some name →
          m.get (pfx ++ rowName (tableBlock lines cursor) row ++ [' '] ++ name)
            = some (digitsValue cell : Int) := by
  have hblock : ∀ l ∈ tableBlock lines cursor, isAscii l = true :=
    fun l hl => hascii l (List.mem_of_mem_drop hl)
  have hB : columnBoundaries (tableBlock lines cursor) ≠ [] := by
    obtain ⟨b, hb, -⟩ := hwb
    intro h
    simp [h] at hb
  have hnl := headerNames_length (tableBlock lines cursor) hblock hB
  have hcl : ∀ row, (rowCells (tableBlock lines cursor) row).length
      = (headerNames (tableBlock lines cursor)).length := by
    intro row
    simp [rowCells, rowFields, fieldsFrom_length, hnl]
  -- the run of `parseTable`
  have hrun : parseTable lines cursor pfx
      = Except.ok (some (tableEntries pfx (tableBlock lines cursor)),
          jumpOverEmptyLines lines cursor + (headerBlock (tableBlock lines cursor)).length + 1
            + (dataRows (tableBlock lines cursor)).length) := by
    unfold parseTable
    simp only
    rw [show lines.drop (jumpOverEmptyLines lines cursor) = tableBlock lines cursor from rfl,
      headerLoop_eq (tableBlock lines cursor) _ [] hblock]
    cases hd : (tableBlock lines cursor).drop (headerBlock (tableBlock lines cursor)).length with
    | nil => simp [separatorFound, hd] at hsep
    | cons line rest =>
      have hnb : ¬ isBlankLine line = true := by
        simpa [separatorFound, hd] using hsep
      simp only [hnb, Bool.false_eq_true, if_false]
      have hbody := parseTableBody_rows lines (jumpOverEmptyLines lines cursor) pfx hascii hw hwb
      rw [show lines.drop (jumpOverEmptyLines lines cursor) = tableBlock lines cursor from rfl]
        at hbody
      rw [hbody, rowsLoop_int _ _ pfx (by simp [hnl]) _ _ _
        (fun l hl => hblock l (List.mem_of_mem_drop hl)) hcells]
      have hent : MetricMap.merge [] (tableEntries pfx (tableBlock lines cursor))
          = tableEntries pfx (tableBlock lines cursor) := by
        rw [merge_of_nodup _ [] (by simpa using hkeys)]
        rfl
      exact congrArg (fun m => Except.ok (some m, _)) hent
  refine ⟨_, _, hrun, hnl, ?_, ?_⟩
  · rw [tableEntries, length_flatMap_const _ (headerNames (tableBlock lines cursor)).length]
    intro row _
    simp [rowEntries, hcl row]
  · intro row hrow
    refine ⟨hcl row, fun j cell name hcell hname => ?_⟩
    apply get_of_mem_nodup _ _ _ hkeys
    rw [tableEntries, List.mem_flatMap]
    refine ⟨row, hrow, ?_⟩
    rw [rowEntries, List.mem_iff_getElem?]
    exact ⟨j, by simp [List.getElem?_zipWith, hcell, hname]⟩

/-- A word end is recorded wherever a rune that is not white space is
followed by white space. -/
theorem wordEnds_mem : ∀ (s : GoString) (i : Nat) (findend : Bool) (r : Nat) (x y : Char),
    s[r]? = some x → isSpace x = false → s[r + 1]? = some y → isSpace y = true →
    i + r + 1 ∈ wordEnds s i findend
  | [], _, _, _, _, _, h, _, _, _ => by simp at h
  | c :: cs, i, findend, 0, x, y, hx, hxs, hy, hys => by
    simp only [List.getElem?_cons_zero, Option.some.injEq] at hx
    subst hx
    simp only [Nat.zero_add, List.getElem?_cons_succ] at hy
    cases cs with
    | nil => simp at hy
    | cons d ds =>
      simp only [List.getElem?_cons_zero, Option.some.injEq] at hy
      subst hy
      cases findend <;> simp [wordEnds, hxs, hys]
  | c :: cs, i, findend, r + 1, x, y, hx, hxs, hy, hys => by
    simp only [List.getElem?_cons_succ] at hx hy
    have e : i + (r + 1) + 1 = (i + 1) + r + 1 := by omega
    rw [e]
    cases findend <;> cases hc : isSpace c <;>
      simp only [wordEnds, hc, if_true, if_false, Bool.false_eq_true, List.mem_cons] <;>
      first
        | exact wordEnds_mem cs (i + 1) _ r x y hx hxs hy hys
        | exact Or.inr (wordEnds_mem cs (i + 1) _ r x y hx hxs hy hys)

/-- Inside a slice that holds no word end white space is never preceded by a
rune that is not white space. -/
theorem chain_of_no_wordEnd (l : GoString) (p n : Nat)
    (h : ∀ e, p < e → e < p + n → e ∉ wordEnds l 0 false) :
    List.Chain' (fun a b => isSpace a = false → isSpace b = false) ((l.drop p).take n) := by
  rw [List.chain'_iff_get]
  intro i hi hsp
  have hlen : i + 1 < ((l.drop p).take n).length := by omega
  have hn : i + 1 < n := by
    have := List.length_take_le n (l.drop p)
    omega
  cases hy : isSpace (((l.drop p).take n).get ⟨i + 1, hlen⟩) with
  | false => rfl
  | true =>
    exfalso
    have h1 : l[p + i]? = some (((l.drop p).take n).get ⟨i, Nat.lt_of_succ_lt hlen⟩) := by
      rw [List.get_eq_getElem, ← List.getElem?_eq_getElem, List.getElem?_take_of_lt (show i < n by omega),
        List.getElem?_drop]
    have h2 : l[p + i + 1]? = some (((l.drop p).take n).get ⟨i + 1, hlen⟩) := by
      rw [List.get_eq_getElem, ← List.getElem?_eq_getElem, List.getElem?_take_of_lt hn,
        List.getElem?_drop, Nat.add_assoc]
    have := wordEnds_mem l 0 false (p + i) _ _ h1 hsp h2 hy
    exact h (0 + (p + i) + 1) (by omega) (by omega) this

theorem noSpace_of_chain : ∀ (t : GoString),
    List.Chain' (fun a b => isSpace a = false → isSpace b = false) t →
    (∀ c ∈ t.head?, isSpace c = false) → ∀ c ∈ t, isSpace c = false
  | [], _, _ => by simp
  | [a], _, h0 => by
    intro c hc
    simp only [List.mem_singleton] at hc
    subst hc
    exact h0 c (by simp)
  | a :: b :: t, hch, h0 => by
    have ha : isSpace a = false := h0 a (by simp)
    rw [List.chain'_cons] at hch
    have := noSpace_of_chain (b :: t) hch.2 (fun c hc => by
      simp only [List.head?_cons, Option.mem_def, Option.some.injEq] at hc
      subst hc
      exact hch.1 ha)
    intro c hc
    rcases List.mem_cons.mp hc with hc | hc
    · subst hc; exact ha
    · exact this c hc

/-- The trimmed text of a slice that holds no word end is one word. -/
theorem trimSpace_noSpace (s : GoString)
    (h : List.Chain' (fun a b => isSpace a = false → isSpace b = false) s) :
    ∀ c ∈ trimSpace s, isSpace c = false := by
  have ht : ∀ c ∈ s.dropWhile isSpace, isSpace c = false := by
    apply noSpace_of_chain _ (h.suffix (List.dropWhile_suffix _))
    intro c hc
    have := List.head?_dropWhile_not isSpace s
    rw [Option.mem_def.mp hc] at this
    simpa using this
  unfold trimSpace
  rw [trimRight_of_no_space _ ht]
  exact ht

/-- Cut at offsets that include every word end of the line, each field is one
word or empty. -/
theorem fieldsFrom_noSpace (l : GoString) : ∀ (B : List Nat) (last : Nat),
    (∀ e ∈ wordEnds l 0 false, e ≤ last ∨ e ∈ B) → B.Pairwise (· < ·) →
    (∀ b ∈ B, last ≤ b) →
    ∀ f ∈ fieldsFrom l (B ++ [l.length]) last, ∀ c ∈ f, isSpace c = false
  | [], last, hinv, _, _ => by
    intro f hf
    simp only [List.nil_append, fieldsFrom, List.mem_singleton] at hf
    subst hf
    apply trimSpace_noSpace
    apply chain_of_no_wordEnd
    intro e h1 _ he
    rcases hinv e he with h | h
    · omega
    · simp at h
  | cur :: rest, last, hinv, hpw, hlast => by
    intro f hf
    rw [List.cons_append, fieldsFrom, List.mem_cons] at hf
    rw [List.pairwise_cons] at hpw
    rcases hf with hf | hf
    · subst hf
      apply trimSpace_noSpace
      apply chain_of_no_wordEnd
      intro e h1 h2 he
      rcases hinv e he with h | h
      · omega
      · rcases List.mem_cons.mp h with h | h
        · omega
        · have := hpw.1 e h
          omega
    · refine fieldsFrom_noSpace l rest cur ?_ hpw.2 (fun b hb => Nat.le_of_lt (hpw.1 b hb)) f hf
      intro e he
      rcases hinv e he with h | h
      · exact Or.inl (Nat.le_trans h (hlast cur (List.mem_cons_self _ _)))
      · rcases List.mem_cons.mp h with h | h
        · exact Or.inl (Nat.le_of_eq h)
        · exact Or.inr h

theorem mem_addIndizes : ∀ (t acc : List Nat) (x : Nat),
    x ∈ addIndizes acc t ↔ x ∈ acc ∨ x ∈ t
  | [], acc, x => by simp [addIndizes]
  | v :: t, acc, x => by
    have ih := mem_addIndizes t
    simp only [addIndizes, List.foldl_cons] at ih ⊢
    rw [ih]
    by_cases hv : v ∈ acc
    · simp only [hv, if_true, List.mem_cons]
      constructor
      · rintro (h | h)
        · exact Or.inl h
        · exact Or.inr (Or.inr h)
      · rintro (h | h | h)
        · exact Or.inl h
        · exact Or.inl (h ▸ hv)
        · exact Or.inr h
    · simp only [hv, if_false, List.mem_append, List.mem_cons, List.not_mem_nil, or_false]
      constructor
      · rintro ((h | h) | h)
        · exact Or.inl h
        · exact Or.inr (Or.inl h)
        · exact Or.inr (Or.inr h)
      · rintro (h | h | h)
        · exact Or.inl (Or.inl h)
        · exact Or.inl (Or.inr h)
        · exact Or.inr h

theorem nodup_addIndizes : ∀ (t acc : List Nat), acc.Nodup → (addIndizes acc t).Nodup
  | [], acc, h => by simpa [addIndizes] using h
  | v :: t, acc, h => by
    have ih := nodup_addIndizes t
    simp only [addIndizes, List.foldl_cons] at ih ⊢
    apply ih
    by_cases hv : v ∈ acc
    · simpa [hv] using h
    · simp only [hv, if_false]
      exact List.Nodup.append h (List.nodup_singleton v) (by simpa using hv)

theorem union_spec : ∀ (header : List GoString) (acc : List Nat), acc.Nodup →
    (header.foldl (fun acc line => addIndizes acc (wordEnds line 0 false)) acc).Nodup ∧
    ∀ line ∈ header, ∀ e ∈ wordEnds line 0 false,
      e ∈ header.foldl (fun acc line => addIndizes acc (wordEnds line 0 false)) acc
  | [], acc, h => ⟨h, by simp⟩
  | l :: header, acc, h => by
    have ih := union_spec header (addIndizes acc (wordEnds l 0 false)) (nodup_addIndizes _ _ h)
    have hmono : ∀ (hd : List GoString) (a : List Nat) (x : Nat), x ∈ a →
        x ∈ hd.foldl (fun acc line => addIndizes acc (wordEnds line 0 false)) a := by
      intro hd
      induction hd with
      | nil => intro a x hx; exact hx
      | cons y ys ihy =>
        intro a x hx
        exact ihy _ x ((mem_addIndizes _ _ _).mpr (Or.inl hx))
    refine ⟨ih.1, ?_⟩
    intro line hline e he
    rcases List.mem_cons.mp hline with hl | hl
    · subst hl
      exact hmono header _ e ((mem_addIndizes _ _ _).mpr (Or.inr he))
    · exact ih.2 line hl e he

/-- The column boundaries are strictly ascending and hold every word end of
every header line. -/
theorem columnBoundaries_spec (block : List GoString) :
    (columnBoundaries block).Pairwise (· < ·) ∧
    ∀ line ∈ headerBlock block, ∀ e ∈ wordEnds line 0 false, e ∈ columnBoundaries block := by
  obtain ⟨hn, hm⟩ := union_spec (headerBlock block) [] List.nodup_nil
  unfold columnBoundaries sortIndizes
  constructor
  · have hs := List.sorted_insertionSort (· ≤ ·)
      ((headerBlock block).foldl (fun acc line => addIndizes acc (wordEnds line 0 false)) [])
    exact hs.lt_of_le ((List.perm_insertionSort _ _).nodup_iff.mpr hn)
  · intro line hl e he
    exact (List.perm_insertionSort _ _).mem_iff.mpr (hm line hl e he)

/-- Every piece a header line is cut into is one word or empty. -/
theorem headerFields_noSpace (block : List GoString) (line : GoString)
    (hl : line ∈ headerBlock block) :
    ∀ f ∈ fieldsFrom line (columnBoundaries block ++ [line.length]) 0,
      ∀ c ∈ f, isSpace c = false := by
  obtain ⟨hpw, hm⟩ := columnBoundaries_spec block
  exact fieldsFrom_noSpace line _ 0 (fun e he => Or.inr (hm line hl e he)) hpw
    (fun _ _ => Nat.zero_le _)

theorem count_space_of_noSpace (s : GoString) (h : ∀ c ∈ s, isSpace c = false) :
    s.count ' ' = 0 :=
  List.count_eq_zero.mpr (fun hmem => absurd (h ' ' hmem) (by decide))

theorem mergeHeaderLine_nil_count : ∀ (ss : List GoString),
    (∀ s ∈ ss, ∀ c ∈ s, isSpace c = false) →
    ∀ x ∈ mergeHeaderLine [] ss, x.count ' ' = 0
  | [], _ => by simp [mergeHeaderLine]
  | s :: ss, h => by
    intro x hx
    rw [mergeHeaderLine, List.mem_cons] at hx
    rcases hx with hx | hx
    · subst hx
      rw [trimSpace_of_no_space s (h s (List.mem_cons_self _ _))]
      exact count_space_of_noSpace s (h s (List.mem_cons_self _ _))
    · exact mergeHeaderLine_nil_count ss (fun t ht => h t (List.mem_cons_of_mem _ ht)) x hx

theorem mergeHeaderLine_count (k : Nat) : ∀ (vs ss : List GoString), vs.length = ss.length →
    (∀ v ∈ vs, v.count ' ' = k) → (∀ s ∈ ss, ∀ c ∈ s, isSpace c = false) →
    ∀ x ∈ mergeHeaderLine vs ss, x.count ' ' = k + 1
  | [], [], _, _, _ => by simp [mergeHeaderLine]
  | [], _ :: _, h, _, _ => by simp at h
  | _ :: _, [], h, _, _ => by simp at h
  | v :: vs, s :: ss, hlen, hv, hs => by
    intro x hx
    rw [mergeHeaderLine, List.mem_cons] at hx
    rcases hx with hx | hx
    · subst hx
      rw [trimSpace_of_no_space s (hs s (List.mem_cons_self _ _))]
      simp only [List.count_append, hv v (List.mem_cons_self _ _),
        count_space_of_noSpace s (hs s (List.mem_cons_self _ _))]
      simp
    · exact mergeHeaderLine_count k vs ss (by simpa using hlen)
        (fun t ht => hv t (List.mem_cons_of_mem _ ht))
        (fun t ht => hs t (List.mem_cons_of_mem _ ht)) x hx

theorem foldl_mergeHeaderLine_count (B : List Nat) : ∀ (header values : List GoString) (k : Nat),
    values.length = B.length + 1 → (∀ v ∈ values, v.count ' ' = k) →
    (∀ line ∈ header, ∀ f ∈ fieldsFrom line (B ++ [line.length]) 0, ∀ c ∈ f, isSpace c = false) →
    ∀ x ∈ header.foldl (fun values line =>
        mergeHeaderLine values (fieldsFrom line (B ++ [line.length]) 0)) values,
      x.count ' ' = k + header.length
  | [], values, k, _, hv, _ => by simpa using hv
  | line :: header, values, k, hlen, hv, hf => by
    intro x hx
    rw [List.foldl_cons] at hx
    have hfl : (fieldsFrom line (B ++ [line.length]) 0).length = B.length + 1 := by
      simp [fieldsFrom_length]
    have := foldl_mergeHeaderLine_count B header
      (mergeHeaderLine values (fieldsFrom line (B ++ [line.length]) 0)) (k + 1)
      (by rw [mergeHeaderLine_length, hlen, hfl, Nat.max_self])
      (mergeHeaderLine_count k values _ (by rw [hlen, hfl]) hv
        (hf line (List.mem_cons_self _ _)))
      (fun l hl => hf l (List.mem_cons_of_mem _ hl)) x hx
    rw [this, List.length_cons]
    omega

/-- Every column name holds the same number of spaces: one fewer than there
are header lines. -/
theorem headerNames_count (block : List GoString) :
    ∀ name ∈ headerNames block, name.count ' ' = (headerBlock block).length - 1 := by
  intro name hname
  unfold headerNames at hname
  have hf : ∀ line ∈ headerBlock block,
      ∀ f ∈ fieldsFrom line (columnBoundaries block ++ [line.length]) 0,
        ∀ c ∈ f, isSpace c = false := fun line hl => headerFields_noSpace block line hl
  cases hh : headerBlock block with
  | nil => simp [hh] at hname
  | cons line header =>
    rw [hh] at hname hf
    rw [List.foldl_cons] at hname
    have hfl : (fieldsFrom line (columnBoundaries block ++ [line.length]) 0).length
        = (columnBoundaries block).length + 1 := by
      simp [fieldsFrom_length]
    have := foldl_mergeHeaderLine_count (columnBoundaries block) header
      (mergeHeaderLine [] (fieldsFrom line (columnBoundaries block ++ [line.length]) 0)) 0
      (by rw [mergeHeaderLine_length, hfl]; simp)
      (mergeHeaderLine_nil_count _ (hf line (List.mem_cons_self _ _)))
      (fun l hl => hf l (List.mem_cons_of_mem _ hl)) name hname
    simpa using this

/-- A key determines its row name and its column name, among column names
with the same number of spaces. -/
theorem join_inj : ∀ (a b c1 c2 : GoString), a ++ [' '] ++ c1 = b ++ [' '] ++ c2 →
    c1.count ' ' = c2.count ' ' → a = b ∧ c1 = c2
  | [], [], c1, c2, h, _ => by simpa using h
  | [], y :: b, c1, c2, h, hc => by
    simp only [List.nil_append, List.singleton_append, List.cons_append, List.cons.injEq] at h
    obtain ⟨-, h2⟩ := h
    rw [h2] at hc
    simp only [List.count_append, List.count_cons_self] at hc
    omega
  | x :: a, [], c1, c2, h, hc => by
    simp only [List.nil_append, List.singleton_append, List.cons_append, List.cons.injEq] at h
    obtain ⟨-, h2⟩ := h
    rw [← h2] at hc
    simp only [List.count_append, List.count_cons_self] at hc
    omega
  | x :: a, y :: b, c1, c2, h, hc => by
    simp only [List.cons_append, List.cons.injEq] at h
    obtain ⟨hxy, h2⟩ := h
    obtain ⟨hab, hcc⟩ := join_inj a b c1 c2 (by simpa using h2) hc
    exact ⟨by rw [hxy, hab], hcc⟩

theorem map_fst_zipWith {α : Type} (g : GoString → GoString) (v : α → Int) :
    ∀ (cells : List α) (names : List GoString), cells.length = names.length →
    (List.zipWith (fun cell name => (g name, v cell)) cells names).map Prod.fst = names.map g
  | [], [], _ => rfl
  | [], _ :: _, h => by simp at h
  | _ :: _, [], h => by simp at h
  | c :: cells, n :: names, h => by
    simp only [List.zipWith_cons_cons, List.map_cons, List.cons.injEq, true_and]
    exact map_fst_zipWith g v cells names (by simpa using h)

/-- When the (row name, column name) pairs of a table are distinct, so are its
keys. -/
theorem tableKeys_nodup (pfx : GoString) (block : List GoString)
    (hcl : ∀ row, (rowCells block row).length = (headerNames block).length)
    (hpairs : (tablePairs block).Nodup) :
    ((tableEntries pfx block).map Prod.fst).Nodup := by
  have hkeys : (tableEntries pfx block).map Prod.fst
      = (tablePairs block).map (fun p => pfx ++ p.1 ++ [' '] ++ p.2) := by
    unfold tableEntries tablePairs
    rw [List.map_flatMap, List.map_flatMap]
    congr 1
    funext row
    rw [rowEntries, map_fst_zipWith (fun name => pfx ++ rowName block row ++ [' '] ++ name)
      (fun cell => (digitsValue cell : Int)) _ _ (hcl row), List.map_map]
    rfl
  rw [hkeys]
  refine List.Nodup.map_on ?_ hpairs
  rintro ⟨r1, n1⟩ h1 ⟨r2, n2⟩ h2 heq
  have hn : ∀ p ∈ tablePairs block, p.2 ∈ headerNames block := by
    intro p hp
    simp only [tablePairs, List.mem_flatMap, List.mem_map] at hp
    obtain ⟨row, -, name, hname, rfl⟩ := hp
    exact hname
  have hc : n1.count ' ' = n2.count ' ' := by
    rw [headerNames_count block n1 (hn _ h1), headerNames_count block n2 (hn _ h2)]
  simp only [List.append_assoc] at heq
  have heq' := List.append_cancel_left heq
  obtain ⟨hr, hnn⟩ := join_inj r1 r2 n1 n2 (by simpa using heq') hc
  rw [hr, hnn]

/-- C3 (amended): for a table of single-byte runes (header lines, a separator
line, then `R` data rows ended by a blank line or the end of input) with at
least one column boundary and `C` header columns (one more than boundaries),
a name column of positive width below the first boundary, every cell a
non-negative decimal integer below `2^63` inside the span of its column, and
all (row name, column name) pairs distinct, `parseTable` returns a map with
exactly `C × R` entries, in which for each row and column the key
`pfx + rowName + " " + colName` maps to the integer in the cell. -/
theorem parseTable_well_formed (lines : List GoString) (cursor : Nat) (pfx : GoString)
    (hascii : ∀ l ∈ lines, isAscii l = true)
    (hsep : separatorFound (tableBlock lines cursor) = true)
    (hw : 0 < nameWidth (dataRows (tableBlock lines cursor)))
    (hwb : ∃ b, (columnBoundaries (tableBlock lines cursor)).head? = some b ∧
      nameWidth (dataRows (tableBlock lines cursor)) < b)
    (hcells : ∀ row ∈ dataRows (tableBlock lines cursor),
      ∀ cell ∈ rowCells (tableBlock lines cursor) row, isIntCell cell = true)
    (hpairs : (tablePairs (tableBlock lines cursor)).Nodup) :
    ∃ m c, parseTable lines cursor pfx = Except.ok (some m, c) ∧
      (headerNames (tableBlock lines cursor)).length
        = (columnBoundaries (tableBlock lines cursor)).length + 1 ∧
      m.length = (headerNames (tableBlock lines cursor)).length
        * (dataRows (tableBlock lines cursor)).length ∧
      ∀ row ∈ dataRows (tableBlock lines cursor),
        (rowCells (tableBlock lines cursor) row).length
          = (headerNames (tableBlock lines cursor)).length ∧
        ∀ (j : Nat) (cell name : GoString),
          (rowCells (tableBlock lines cursor) row)[j]? = some cell →
          (headerNames (tableBlock lines cursor))[j]? = some name →
          m.get (pfx ++ rowName (tableBlock lines cursor) row ++ [' '] ++ name)
            = some (digitsValue cell : Int) := by
  have hblock : ∀ l ∈ tableBlock lines cursor, isAscii l = true :=
    fun l hl => hascii l (List.mem_of_mem_drop hl)
  have hB : columnBoundaries (tableBlock lines cursor) ≠ [] := by
    obtain ⟨b, hb, -⟩ := hwb
    intro h
    simp [h] at hb
  have hnl := headerNames_length (tableBlock lines cursor) hblock hB
  have hcl : ∀ row, (rowCells (tableBlock lines cursor) row).length
      = (headerNames (tableBlock lines cursor)).length := by
    intro row
    simp [rowCells, rowFields, fieldsFrom_length, hnl]
  exact parseTable_of_distinct_keys lines cursor pfx hascii hsep hw hwb hcells
    (tableKeys_nodup pfx _ hcl hpairs)

/-- C3 (witness): the table of `twoByTwoLines`, two rows by two columns. -/
theorem parseTable_well_formed_witness :
    ∃ m c, parseTable twoByTwoLines 0 "MEM ".toList = Except.ok (some m, c) ∧
      (headerNames (tableBlock twoByTwoLines 0)).length
        = (columnBoundaries (tableBlock twoByTwoLines 0)).length + 1 ∧
      m.length = (headerNames (tableBlock twoByTwoLines 0)).length
        * (dataRows (tableBlock twoByTwoLines 0)).length ∧
      ∀ row ∈ dataRows (tableBlock twoByTwoLines 0),
        (rowCells (tableBlock twoByTwoLines 0) row).length
          = (headerNames (tableBlock twoByTwoLines 0)).length ∧
        ∀ (j : Nat) (cell name : GoString),
          (rowCells (tableBlock twoByTwoLines 0) row)[j]? = some cell →
          (headerNames (tableBlock twoByTwoLines 0))[j]? = some name →
          MetricMap.get m ("MEM ".toList ++ rowName (tableBlock twoByTwoLines 0) row ++ [' '] ++ name)
            = some (digitsValue cell : Int) :=
  parseTable_well_formed twoByTwoLines 0 "MEM ".toList (by decide) (by decide) (by decide)
    ⟨13, by decide, by decide⟩ (by decide) (by decide)

/-- When `Scan` returns, it returns an error exactly when no line matches the
intro marker or the overview table parsed after the first marker line has no
entry. -/
theorem scan_error_iff (lines : List GoString) :
    (∃ e, Scan lines = Except.ok (Except.error e)) ↔
      ((isMemoryOverviewIntro lines 0).1 = false ∨
        ∃ meminfo index, parseTable lines (isMemoryOverviewIntro lines 0).2 "MEM ".toList
            = Except.ok (meminfo, index) ∧ mapLen meminfo = 0) := by
  unfold Scan
  rcases hi : isMemoryOverviewIntro lines 0 with ⟨found, index⟩
  cases found with
  | false => simp
  | true =>
    simp only [Bool.true_eq_false, false_or]
    rcases hp : parseTable lines index "MEM ".toList with e | ⟨meminfo, index'⟩
    · simp
    · simp only [Except.ok.injEq, Prod.mk.injEq, exists_and_right]
      by_cases hl : mapLen meminfo = 0
      · simp only [hl, if_true, Except.ok.injEq, Except.error.injEq, exists_eq', true_iff,
          and_true]
        exact ⟨meminfo, ⟨index', rfl, rfl⟩, hl⟩
      · simp only [hl, if_false]
        constructor
        · rintro ⟨e, he⟩
          split at he <;> simp at he
        · rintro ⟨m, ⟨i, hm, -⟩, hz⟩
          exact absurd (hm ▸ hz) hl

theorem removeBracketsAux_sublist : ∀ (flag : Bool) (s : GoString),
    (removeBracketsAux flag s).Sublist s
  | _, [] => by simp [removeBracketsAux]
  | true, c :: cs => by
    rw [removeBracketsAux]
    split <;> exact (removeBracketsAux_sublist _ cs).cons _
  | false, c :: cs => by
    rw [removeBracketsAux]
    split
    · exact (removeBracketsAux_sublist _ cs).cons _
    · exact (removeBracketsAux_sublist _ cs).cons₂ _

theorem noBracketMatch_removeBracketsAux : ∀ (flag : Bool) (s : GoString),
    noBracketMatch (removeBracketsAux flag s)
  | _, [] => by simp [removeBracketsAux, noBracketMatch]
  | true, c :: cs => by
    rw [removeBracketsAux]
    split <;> exact noBracketMatch_removeBracketsAux _ cs
  | false, c :: cs => by
    rw [removeBracketsAux]
    split
    · exact noBracketMatch_removeBracketsAux _ cs
    · rename_i h
      refine ⟨fun hc hmem => h ⟨hc, ?_⟩, noBracketMatch_removeBracketsAux _ cs⟩
      exact (removeBracketsAux_sublist false cs).subset hmem

theorem noBracketMatch_sublist {u t : GoString} (h : u.Sublist t) :
    noBracketMatch t → noBracketMatch u := by
  induction h with
  | slnil => exact id
  | cons a _ ih => exact fun ht => ih ht.2
  | cons₂ a hs ih =>
    exact fun ht => ⟨fun hc hmem => ht.1 hc (hs.subset hmem), ih ht.2⟩

theorem removeBrackets_of_noBracketMatch : ∀ (t : GoString), noBracketMatch t →
    removeBrackets t = t
  | [], _ => rfl
  | c :: cs, h => by
    have ih := removeBrackets_of_noBracketMatch cs h.2
    unfold removeBrackets at ih ⊢
    rw [removeBracketsAux, if_neg (fun hh => h.1 hh.1 hh.2), ih]

theorem trimRight_sublist : ∀ (s : GoString), (trimRight s).Sublist s
  | [] => by simp [trimRight]
  | c :: cs => by
    have ih := trimRight_sublist cs
    rw [trimRight]
    split
    · rename_i heq
      split
      · exact List.nil_sublist _
      · exact (List.nil_sublist cs).cons₂ c
    · exact ih.cons₂ c

theorem trimSpace_sublist (s : GoString) : (trimSpace s).Sublist s :=
  (trimRight_sublist _).trans (List.dropWhile_sublist _)

theorem trimRight_idem : ∀ (s : GoString), trimRight (trimRight s) = trimRight s
  | [] => rfl
  | c :: cs => by
    have ih := trimRight_idem cs
    rw [trimRight]
    cases hr : trimRight cs with
    | nil =>
      simp only
      by_cases hc : isSpace c = true
      · simp [hc, trimRight]
      · simp [hc, trimRight]
    | cons d r =>
      simp only
      rw [hr] at ih
      rw [trimRight, ih]

theorem trimRight_head : ∀ (s : GoString), (∀ c ∈ s.head?, isSpace c = false) →
    ∀ c ∈ (trimRight s).head?, isSpace c = false
  | [], _ => by simp [trimRight]
  | c :: cs, h => by
    have hc : isSpace c = false := h c (by simp)
    rw [trimRight]
    cases trimRight cs <;> simp [hc]

/-- Trimming is idempotent. -/
theorem trimSpace_idem (s : GoString) : trimSpace (trimSpace s) = trimSpace s := by
  unfold trimSpace
  have hhead : ∀ c ∈ (s.dropWhile isSpace).head?, isSpace c = false := by
    intro c hc
    have := List.head?_dropWhile_not isSpace s
    rw [Option.mem_def.mp hc] at this
    simpa using this
  have hd : (trimRight (s.dropWhile isSpace)).dropWhile isSpace
      = trimRight (s.dropWhile isSpace) := by
    have h := trimRight_head _ hhead
    cases ht : trimRight (s.dropWhile isSpace) with
    | nil => rfl
    | cons c cs =>
      rw [ht] at h
      simp [List.dropWhile, h c (by simp)]
  rw [hd, trimRight_idem]

/-- C11: bracket stripping is idempotent, `strip(strip(s)) = strip(s)` for
every cell string; `123 (stale)` strips to `123` and parses to 123, and
`(123)` strips to the empty string and produces no entry. -/
theorem stripCell_idempotent :
    (∀ s : GoString, stripCell (stripCell s) = stripCell s) ∧
    stripCell "123 (stale)".toList = "123".toList ∧
    atoi (stripCell "123 (stale)".toList) = some 123 ∧
    (∀ (pfx rowname header : GoString),
      cellsLoop pfx rowname ["123 (stale)".toList] [header] []
        = Except.ok [(pfx ++ trimSpace rowname ++ [' '] ++ header, 123)]) ∧
    stripCell "(123)".toList = [] ∧
    (∀ (pfx rowname : GoString) (cells headers : List GoString) (result : MetricMap),
      cellsLoop pfx rowname ("(123)".toList :: cells) headers result
        = cellsLoop pfx rowname cells (headers.drop 1) result) := by
  refine ⟨?_, by decide, by decide, ?_, by decide, ?_⟩
  · intro s
    unfold stripCell
    have h : noBracketMatch (trimSpace (removeBrackets s)) :=
      noBracketMatch_sublist (trimSpace_sublist _) (noBracketMatch_removeBracketsAux false s)
    rw [removeBrackets_of_noBracketMatch _ h, trimSpace_idem]
  · intro pfx rowname header
    have h1 : trimSpace (removeBrackets "123 (stale)".toList) = "123".toList := by decide
    have h2 : byteLen "123".toList > 0 := by decide
    have h3 : atoi "123".toList = some 123 := by decide
    unfold cellsLoop
    simp only [h1, h2, if_true, h3, cellsLoop, MetricMap.set]
  · intro pfx rowname cells headers result
    have h1 : trimSpace (removeBrackets "(123)".toList) = [] := by decide
    have h2 : ¬ byteLen ([] : GoString) > 0 := by decide
    conv_lhs => unfold cellsLoop
    simp only [h1, h2, if_false]

/-- Every recorded offset lies where white space follows a rune that is not
white space (or, at the start of the scan, inside a word). -/
theorem wordEnds_sound : ∀ (s : GoString) (i : Nat) (findend : Bool) (e : Nat),
    e ∈ wordEnds s i findend →
    (e = i ∧ findend = true ∧ ∃ y, s[0]? = some y ∧ isSpace y = true) ∨
    (∃ r x y, e = i + r + 1 ∧ s[r]? = some x ∧ isSpace x = false ∧
      s[r + 1]? = some y ∧ isSpace y = true)
  | [], _, _, _, h => by simp [wordEnds] at h
  | c :: cs, i, findend, e, h => by
    have shift : ∀ fe, e ∈ wordEnds cs (i + 1) fe → (fe = true → isSpace c = false) →
        (e = i ∧ findend = true ∧ ∃ y, (c :: cs)[0]? = some y ∧ isSpace y = true) ∨
        (∃ r x y, e = i + r + 1 ∧ (c :: cs)[r]? = some x ∧ isSpace x = false ∧
          (c :: cs)[r + 1]? = some y ∧ isSpace y = true) := by
      intro fe hmem hfe
      rcases wordEnds_sound cs (i + 1) fe e hmem with ⟨he, hf, y, hy, hys⟩ | ⟨r, x, y, he, hx, hxs, hy, hys⟩
      · exact Or.inr ⟨0, c, y, by omega, by simp, hfe hf, by simpa using hy, hys⟩
      · exact Or.inr ⟨r + 1, x, y, by omega, by simpa using hx, hxs, by simpa using hy, hys⟩
    cases findend <;> cases hc : isSpace c <;>
      simp only [wordEnds, hc, if_true, if_false, Bool.false_eq_true, List.mem_cons] at h
    · exact shift true h (fun _ => hc)
    · exact shift false h (fun hf => absurd hf (by simp))
    · exact shift true h (fun _ => hc)
    · rcases h with h | h
      · exact Or.inl ⟨h, rfl, c, by simp, hc⟩
      · exact shift false h (fun hf => absurd hf (by simp))

theorem wordEnds_ge (s : GoString) (i : Nat) (findend : Bool) (e : Nat)
    (h : e ∈ wordEnds s i findend) : i ≤ e := by
  rcases wordEnds_sound s i findend e h with ⟨he, -⟩ | ⟨r, x, y, he, -⟩ <;> omega

/-- The recorded offsets are strictly ascending. -/
theorem wordEnds_pairwise : ∀ (s : GoString) (i : Nat) (findend : Bool),
    (wordEnds s i findend).Pairwise (· < ·)
  | [], _, _ => by simp [wordEnds]
  | c :: cs, i, findend => by
    cases findend <;> cases hc : isSpace c <;>
      simp only [wordEnds, hc, if_true, if_false, Bool.false_eq_true]
    · exact wordEnds_pairwise cs (i + 1) true
    · exact wordEnds_pairwise cs (i + 1) false
    · exact wordEnds_pairwise cs (i + 1) true
    · rw [List.pairwise_cons]
      refine ⟨fun e he => ?_, wordEnds_pairwise cs (i + 1) false⟩
      have := wordEnds_ge cs (i + 1) false e he
      omega

/-- The number of recorded offsets: one per word, less the word the line
ends in. -/
theorem wordEnds_length : ∀ (s : GoString) (i : Nat) (findend : Bool),
    (wordEnds s i findend).length + (if endsInWord s findend = true then 1 else 0)
      = countWords s findend + (if findend = true then 1 else 0)
  | [], _, _ => by simp [wordEnds, endsInWord, countWords]
  | c :: cs, i, findend => by
    have iht := wordEnds_length cs (i + 1) true
    have ihf := wordEnds_length cs (i + 1) false
    cases findend <;> cases hc : isSpace c <;>
      simp only [wordEnds, endsInWord, countWords, hc, if_true, if_false, Bool.false_eq_true,
        Bool.not_false, Bool.not_true, List.length_cons] at iht ihf ⊢ <;> omega

/-- The offsets of the specification are the recorded ones and, when the line
ends in a word, the length of the line. -/
theorem tokenEnds_eq : ∀ (s : GoString) (i : Nat) (findend : Bool),
    tokenEnds s i findend
      = wordEnds s i findend ++ (if endsInWord s findend = true then [i + s.length] else [])
  | [], _, _ => by simp [tokenEnds, wordEnds, endsInWord]
  | c :: cs, i, findend => by
    have e : i + 1 + cs.length = i + (cs.length + 1) := by omega
    cases findend <;> cases hc : isSpace c <;>
      simp [tokenEnds, wordEnds, endsInWord, hc, tokenEnds_eq cs (i + 1), e]

/-- C13 (counterexample): the line `  Pss` holds one word, which ends at the
end of the line at offset 5, and `findIndizesOfEndingText` returns no offset
for it: the result is empty although the line contains a token. -/
theorem findIndizesOfEndingText_misses_last_word :
    countWords "  Pss".toList false = 1 ∧
    tokenEnds "  Pss".toList 0 false = [5] ∧
    findIndizesOfEndingText "  Pss".toList = Except.ok [] := by
  decide

/-- C13 (amended): for every line of single-byte runes
`findIndizesOfEndingText` returns, in ascending order, exactly the offsets
where a word ends and white space begins; a word that ends at the end of the
line yields no offset. So the result is the list of the ends of all maximal
runs of runes that are not white space without the end of the line, a line
with `n` words yields `n` offsets when it does not end in a word and `n - 1`
when it does, and the result is empty exactly when the line holds no word or
only one word that runs to the end of the line. -/
theorem findIndizesOfEndingText_spec (s : GoString) (h : isAscii s = true) :
    ∃ offsets, findIndizesOfEndingText s = Except.ok offsets ∧
      offsets.Pairwise (· < ·) ∧
      (∀ e, e ∈ offsets ↔ ∃ r x y, e = r + 1 ∧ s[r]? = some x ∧ isSpace x = false ∧
        s[r + 1]? = some y ∧ isSpace y = true) ∧
      tokenEnds s 0 false
        = offsets ++ (if endsInWord s false = true then [s.length] else []) ∧
      offsets.length + (if endsInWord s false = true then 1 else 0) = countWords s false ∧
      (offsets = [] ↔ countWords s false = if endsInWord s false = true then 1 else 0) := by
  refine ⟨wordEnds s 0 false, findIndizesOfEndingText_of_isAscii s h,
    wordEnds_pairwise s 0 false, ?_, ?_, ?_, ?_⟩
  · intro e
    constructor
    · intro he
      rcases wordEnds_sound s 0 false e he with ⟨-, hf, -⟩ | ⟨r, x, y, he, hx, hxs, hy, hys⟩
      · exact absurd hf (by simp)
      · exact ⟨r, x, y, by omega, hx, hxs, hy, hys⟩
    · rintro ⟨r, x, y, he, hx, hxs, hy, hys⟩
      have := wordEnds_mem s 0 false r x y hx hxs hy hys
      rw [he]
      simpa using this
  · simpa using tokenEnds_eq s 0 false
  · simpa using wordEnds_length s 0 false
  · have hl := wordEnds_length s 0 false
    simp only [Bool.false_eq_true, if_false, Nat.add_zero] at hl
    constructor
    · intro he
      rw [he] at hl
      simpa using hl.symm
    · intro hc
      rw [hc] at hl
      exact List.length_eq_zero.mp (by omega)

/-- C13 (witness): a header line of two words that ends in white space. -/
theorem findIndizesOfEndingText_spec_witness :
    ∃ offsets, findIndizesOfEndingText "   Pss  Private ".toList = Except.ok offsets ∧
      offsets.Pairwise (· < ·) ∧
      (∀ e, e ∈ offsets ↔ ∃ r x y, e = r + 1 ∧ "   Pss  Private ".toList[r]? = some x ∧
        isSpace x = false ∧ "   Pss  Private ".toList[r + 1]? = some y ∧ isSpace y = true) ∧
      tokenEnds "   Pss  Private ".toList 0 false
        = offsets ++ (if endsInWord "   Pss  Private ".toList false = true
            then ["   Pss  Private ".toList.length] else []) ∧
      offsets.length + (if endsInWord "   Pss  Private ".toList false = true then 1 else 0)
        = countWords "   Pss  Private ".toList false ∧
      (offsets = [] ↔ countWords "   Pss  Private ".toList false
        = if endsInWord "   Pss  Private ".toList false = true then 1 else 0) :=
  findIndizesOfEndingText_spec "   Pss  Private ".toList (by decide)

theorem length_le_byteLen : ∀ (s : GoString), s.length ≤ byteLen s
  | [] => Nat.le_refl _
  | c :: cs => by
    have ih := length_le_byteLen cs
    have : 1 ≤ runeLen c := by
      unfold runeLen
      split
      · omega
      · split
        · omega
        · split <;> omega
    simp only [List.length_cons, byteLen]
    omega

theorem isAscii_of_byteLen_le : ∀ (s : GoString), byteLen s ≤ s.length → isAscii s = true
  | [], _ => rfl
  | c :: cs, h => by
    have hge := length_le_byteLen cs
    simp only [List.length_cons, byteLen] at h
    have hc : c.toNat < 128 := by
      by_contra hn
      have : 2 ≤ runeLen c := by
        unfold runeLen
        rw [if_neg (by omega)]
        split
        · omega
        · split <;> omega
      omega
    have h1 : runeLen c = 1 := by
      unfold runeLen
      rw [if_pos (by omega)]
    have ih := isAscii_of_byteLen_le cs (by omega)
    simp only [isAscii, List.all_cons, Bool.and_eq_true, decide_eq_true_eq] at ih ⊢
    exact ⟨hc, ih⟩

theorem findEndsLoop_ok_bound (n : Nat) : ∀ (rest : GoString) (i : Nat) (findend : Bool)
    (output r : List Nat), findEndsLoop n rest i findend output = Except.ok r →
    n ≤ i + rest.length
  | [], i, _, _, _, h => by
    rw [findEndsLoop] at h
    split at h
    · exact absurd h (by simp)
    · simp only [List.length_nil]
      omega
  | c :: cs, i, findend, output, r, h => by
    rw [findEndsLoop] at h
    simp only [List.length_cons]
    split at h
    · have := fun fe out => findEndsLoop_ok_bound n cs (i + 1) fe out r
      split at h
      · split at h
        · have := this _ _ h
          omega
        · have := this _ _ h
          omega
      · split at h
        · have := this _ _ h
          omega
        · have := this _ _ h
          omega
    · omega

theorem findStartLoop_ok_bound (n : Nat) : ∀ (rest : GoString) (i : Nat) (r : List Nat),
    findStartLoop n rest i = Except.ok r → n ≤ i + rest.length
  | [], i, _, h => by
    rw [findStartLoop] at h
    split at h
    · exact absurd h (by simp)
    · simp only [List.length_nil]
      omega
  | c :: cs, i, r, h => by
    rw [findStartLoop] at h
    split at h
    · split at h
      · exact findEndsLoop_ok_bound n (c :: cs) i false [] r h
      · have := findStartLoop_ok_bound n cs (i + 1) r h
        simp only [List.length_cons]
        omega
    · simp only [List.length_cons]
      omega

/-- `findIndizesOfEndingText` returns only on lines of single-byte runes. -/
theorem isAscii_of_findIndizes_ok {s : GoString} {t : List Nat}
    (h : findIndizesOfEndingText s = Except.ok t) : isAscii s = true := by
  apply isAscii_of_byteLen_le
  have := findStartLoop_ok_bound _ s 0 t h
  omega

/-- C15: on lines made only of single-byte runes, for every cursor, the byte
length of a line equals its rune count and `parseTable` together with
`findIndizesOfEndingText` and `splitAt` never indexes out of range: each of
them returns. -/
theorem parseTable_no_index_out_of_range (lines : List GoString) (cursor : Nat)
    (pfx : GoString) (hascii : ∀ l ∈ lines, isAscii l = true) :
    (∀ l ∈ lines, byteLen l = l.length) ∧
    (∀ l ∈ lines, ∃ t, findIndizesOfEndingText l = Except.ok t) ∧
    (∀ l ∈ lines, ∀ indizes : List Nat, ∃ fields, splitAt l indizes = Except.ok fields) ∧
    (∀ (pfx rowname : GoString) (cells headers : List GoString) (result : MetricMap),
      cells.length ≤ headers.length →
      ∃ result', cellsLoop pfx rowname cells headers result = Except.ok result') ∧
    ∃ r c, parseTable lines cursor pfx = Except.ok (r, c) := by
  refine ⟨fun l hl => byteLen_of_isAscii l (hascii l hl),
    fun l hl => ⟨_, findIndizesOfEndingText_of_isAscii l (hascii l hl)⟩,
    fun l hl indizes => ⟨_, splitAt_of_isAscii l (hascii l hl) indizes⟩,
    fun pfx rowname cells headers result hle => ?_, ?_⟩
  · obtain ⟨r, hr, -⟩ := cellsLoop_ok pfx rowname cells headers result hle
    exact ⟨r, hr⟩
  have hblock : ∀ l ∈ tableBlock lines cursor, isAscii l = true :=
    fun l hl => hascii l (List.mem_of_mem_drop hl)
  unfold parseTable
  simp only
  rw [show lines.drop (jumpOverEmptyLines lines cursor) = tableBlock lines cursor from rfl,
    headerLoop_eq (tableBlock lines cursor) _ [] hblock]
  cases hd : (tableBlock lines cursor).drop (headerBlock (tableBlock lines cursor)).length with
  | nil =>
    simp only
    unfold parseTableBody
    split
    · exact ⟨none, _, rfl⟩
    · have hrows : List.drop (jumpOverEmptyLines lines cursor
          + (headerBlock (tableBlock lines cursor)).length) lines = [] := by
        rw [← hd, tableBlock, List.drop_drop]
      simp only [Nat.sub_self, List.take_zero, headerNamesLoop, hrows, nameLengthLoop,
        true_or, if_true]
      exact ⟨none, _, rfl⟩
  | cons line rest =>
    by_cases hb : isBlankLine line = true
    · simp only [hb, if_true]
      exact ⟨none, _, rfl⟩
    · simp only [hb, if_false]
      obtain ⟨r, c, hr, -⟩ := parseTableBody_separator lines
        (jumpOverEmptyLines lines cursor) pfx hascii
      exact ⟨r, c, hr⟩

/-- C15 (witness): the lines of `twoByTwoLines` are single-byte runes. -/
theorem parseTable_no_index_out_of_range_witness :
    (∀ l ∈ twoByTwoLines, byteLen l = l.length) ∧
    (∀ l ∈ twoByTwoLines, ∃ t, findIndizesOfEndingText l = Except.ok t) ∧
    (∀ l ∈ twoByTwoLines, ∀ indizes : List Nat, ∃ fields, splitAt l indizes = Except.ok fields) ∧
    (∀ (pfx rowname : GoString) (cells headers : List GoString) (result : MetricMap),
      cells.length ≤ headers.length →
      ∃ result', cellsLoop pfx rowname cells headers result = Except.ok result') ∧
    ∃ r c, parseTable twoByTwoLines 0 "MEM ".toList = Except.ok (r, c) :=
  parseTable_no_index_out_of_range twoByTwoLines 0 "MEM ".toList (by decide)

theorem joinSpaces_snoc : ∀ (xs : List GoString) (x : GoString), xs ≠ [] →
    joinSpaces (xs ++ [x]) = joinSpaces xs ++ [' '] ++ x
  | [], _, h => absurd rfl h
  | [a], x, _ => by simp [joinSpaces]
  | a :: b :: rest, x, _ => by
    have ih := joinSpaces_snoc (b :: rest) x (by simp)
    simp only [List.cons_append] at ih ⊢
    simp only [joinSpaces, ih, List.append_assoc]

theorem fieldsFrom_getElem (l : GoString) : ∀ (indizes : List Nat) (last j : Nat),
    j < indizes.length →
    (fieldsFrom l indizes last)[j]?
      = some (trimSpace ((l.drop (if j = 0 then last else indizes.getD (j - 1) 0)).take
          (indizes.getD j 0 - (if j = 0 then last else indizes.getD (j - 1) 0))))
  | [], _, _, h => by simp at h
  | cur :: rest, last, 0, _ => by simp [fieldsFrom]
  | cur :: rest, last, j + 1, h => by
    have ih := fieldsFrom_getElem l rest cur j (by simpa using h)
    rw [fieldsFrom, List.getElem?_cons_succ, ih]
    cases j with
    | zero => simp
    | succ k => simp

/-- A piece of a split header line is the text of its column. -/
theorem fieldsFrom_columnText (B : List Nat) (line : GoString) (j : Nat)
    (hj : j < B.length + 1) :
    (fieldsFrom line (B ++ [line.length]) 0)[j]? = some (columnText B line j) := by
  rw [fieldsFrom_getElem line _ 0 j (by simpa using hj)]
  rfl

theorem columnText_trim (B : List Nat) (line : GoString) (j : Nat) :
    trimSpace (columnText B line j) = columnText B line j := by
  unfold columnText
  exact trimSpace_idem _

theorem mergeHeaderLine_nil_getElem : ∀ (ss : List GoString) (j : Nat),
    (mergeHeaderLine [] ss)[j]? = (ss[j]?).map trimSpace
  | [], j => by simp [mergeHeaderLine]
  | s :: ss, 0 => by simp [mergeHeaderLine]
  | s :: ss, j + 1 => by
    simp [mergeHeaderLine, mergeHeaderLine_nil_getElem ss j]

theorem mergeHeaderLine_getElem : ∀ (vs ss : List GoString) (j : Nat) (v s : GoString),
    vs[j]? = some v → ss[j]? = some s →
    (mergeHeaderLine vs ss)[j]? = some (v ++ [' '] ++ trimSpace s)
  | [], _, _, _, _, hv, _ => by simp at hv
  | _ :: _, [], _, _, _, _, hs => by simp at hs
  | v0 :: vs, s0 :: ss, 0, v, s, hv, hs => by
    simp only [List.getElem?_cons_zero, Option.some.injEq] at hv hs
    simp [mergeHeaderLine, hv, hs]
  | v0 :: vs, s0 :: ss, j + 1, v, s, hv, hs => by
    simp only [List.getElem?_cons_succ] at hv hs
    simp only [mergeHeaderLine, List.getElem?_cons_succ]
    exact mergeHeaderLine_getElem vs ss j v s hv hs

/-- Folding further header lines into the names keeps each name the join of
the texts of its column. -/
theorem foldl_mergeHeaderLine_join (B : List Nat) : ∀ (rest prev values : List GoString),
    prev ≠ [] →
    (∀ j, j < B.length + 1 →
      values[j]? = some (joinSpaces (prev.map (fun line => columnText B line j)))) →
    ∀ j, j < B.length + 1 →
      (rest.foldl (fun values line =>
          mergeHeaderLine values (fieldsFrom line (B ++ [line.length]) 0)) values)[j]?
        = some (joinSpaces ((prev ++ rest).map (fun line => columnText B line j)))
  | [], prev, values, _, hv => by simpa using hv
  | line :: rest, prev, values, hp, hv => by
    intro j hj
    have := foldl_mergeHeaderLine_join B rest (prev ++ [line])
      (mergeHeaderLine values (fieldsFrom line (B ++ [line.length]) 0)) (by simp)
      (fun k hk => by
        rw [mergeHeaderLine_getElem _ _ k _ _ (hv k hk) (fieldsFrom_columnText B line k hk),
          columnText_trim, List.map_append, List.map_singleton,
          joinSpaces_snoc _ _ (by simpa using hp)]) j hj
    simpa using this

/-- C12: for header lines `L1..Lh` on which the boundary detector has run and
column boundaries `B`, the loop that reads the header names returns one name
per column, and the name of column `j` is the trimmed text found in the span of
column `j` on `L1`, `L2`, ..., `Lh`, joined by single spaces in line order. -/
theorem headerNamesLoop_join (B : List Nat) (header : List GoString) (hne : header ≠ [])
    (hdet : ∀ line ∈ header, ∃ t, findIndizesOfEndingText line = Except.ok t) :
    ∃ names, headerNamesLoop B header [] = Except.ok names ∧
      names.length = B.length + 1 ∧
      ∀ j, j < B.length + 1 →
        names[j]? = some (joinSpaces (header.map (fun line => columnText B line j))) := by
  have hascii : ∀ l ∈ header, isAscii l = true := by
    intro l hl
    obtain ⟨t, ht⟩ := hdet l hl
    exact isAscii_of_findIndizes_ok ht
  obtain ⟨names, hnames, hlen⟩ := headerNamesLoop_ok B header [] hascii
  refine ⟨names, hnames, by simpa [hne] using hlen, ?_⟩
  rw [headerNamesLoop_eq B header [] hascii] at hnames
  injection hnames with hnames
  subst hnames
  cases header with
  | nil => exact absurd rfl hne
  | cons line rest =>
    intro j hj
    rw [List.foldl_cons]
    have := foldl_mergeHeaderLine_join B rest [line]
      (mergeHeaderLine [] (fieldsFrom line (B ++ [line.length]) 0)) (by simp)
      (fun k hk => by
        rw [mergeHeaderLine_nil_getElem, fieldsFrom_columnText B line k hk]
        simp [joinSpaces, columnText_trim]) j hj
    simpa using this

/-- C12 (witness): with `Foreign` on the first header line and `Count` on the
second, both ending at offset 13, the name of the column is
`Foreign Count`. -/
theorem headerNamesLoop_join_witness :
    joinSpaces (foreignCountHeader.map (fun line => columnText [13] line 0))
      = "Foreign Count".toList ∧
    ∃ names, headerNamesLoop [13] foreignCountHeader [] = Except.ok names ∧
      names.length = [13].length + 1 ∧
      ∀ j, j < [13].length + 1 →
        names[j]? = some (joinSpaces (foreignCountHeader.map (fun line => columnText [13] line j))) :=
  ⟨by decide, headerNamesLoop_join [13] foreignCountHeader (by decide)
    (fun line hl => ⟨[13], by
      simp only [foreignCountHeader, List.mem_cons, List.mem_singleton, List.not_mem_nil,
        or_false] at hl
      rcases hl with rfl | rfl <;> decide⟩)⟩

theorem splitLoop_length (input : GoString) : ∀ (indizes : List Nat) (lastindex : Nat)
    (fields : List GoString), splitLoop input indizes lastindex = Except.ok fields →
    fields.length = indizes.length
  | [], _, fields, h => by
    simp only [splitLoop, Except.ok.injEq] at h
    rw [← h]
    rfl
  | currentindex :: indizes, lastindex, fields, h => by
    rw [splitLoop] at h
    split at h
    · exact absurd h (by simp)
    · split at h
      · exact absurd h (by simp)
      · rename_i output hout
        simp only [Except.ok.injEq] at h
        rw [← h, List.length_cons, List.length_cons,
          splitLoop_length input indizes currentindex output hout]

/-- Whenever `splitAt` returns, it returns one field more than there are
offsets. -/
theorem splitAt_length {input : GoString} {indizes : List Nat} {fields : List GoString}
    (h : splitAt input indizes = Except.ok fields) : fields.length = indizes.length + 1 := by
  have := splitLoop_length input _ 0 fields h
  simpa using this

theorem headerNamesLoop_length (B : List Nat) : ∀ (header values names : List GoString),
    headerNamesLoop B header values = Except.ok names →
    names.length = if header = [] then values.length else max values.length (B.length + 1)
  | [], values, names, h => by
    simp only [headerNamesLoop, Except.ok.injEq] at h
    simp [h]
  | line :: rest, values, names, h => by
    rw [headerNamesLoop] at h
    split at h
    · exact absurd h (by simp)
    · rename_i split hsplit
      have := headerNamesLoop_length B rest _ names h
      rw [this, mergeHeaderLine_length, splitAt_length hsplit]
      split <;> simp

theorem headerLoop_separator : ∀ (block : List GoString) (index : Nat) (acc : List Nat)
    (he : Nat) (union : List Nat),
    headerLoop block index acc = Except.ok (HeaderScan.separator he union) →
    index ≤ he ∧ he < index + block.length ∧ (he = index → union = acc)
  | [], _, _, _, _, h => by simp [headerLoop] at h
  | line :: rest, index, acc, he, union, h => by
    rw [headerLoop] at h
    split at h
    · exact absurd h (by simp)
    · split at h
      · simp only [Except.ok.injEq, HeaderScan.separator.injEq] at h
        simp only [List.length_cons]
        exact ⟨by omega, by omega, fun _ => h.2.symm⟩
      · split at h
        · exact absurd h (by simp)
        · have := headerLoop_separator rest (index + 1) _ he union h
          simp only [List.length_cons]
          exact ⟨by omega, by omega, fun e => by omega⟩

theorem nameLengthLoop_isAscii : ∀ (rows : List GoString) (namelength w : Nat),
    nameLengthLoop rows namelength = Except.ok w →
    ∀ row ∈ rows.takeWhile (fun r => !isBlankLine r), isAscii row = true
  | [], _, _, _ => by simp
  | row :: rows, namelength, w, h => by
    rw [nameLengthLoop] at h
    by_cases hb : isBlankLine row = true
    · rw [List.takeWhile_cons_of_neg (by simp [hb])]
      simp
    · rw [if_neg hb] at h
      rw [List.takeWhile_cons_of_pos (by simpa using hb)]
      split at h
      · exact absurd h (by simp)
      · rename_i t ht
        intro r hr
        rcases List.mem_cons.mp hr with hr | hr
        · subst hr
          exact isAscii_of_findIndizes_ok ht
        · split at h
          · exact nameLengthLoop_isAscii rows _ w h r hr
          · exact nameLengthLoop_isAscii rows _ w h r hr

theorem rowsLoop_takeWhile (indizes : List Nat) (values : List GoString) (pfx : GoString) :
    ∀ (rows : List GoString) (index : Nat) (result : MetricMap),
    rowsLoop indizes values pfx rows index result
      = rowsLoop indizes values pfx (rows.takeWhile (fun r => !isBlankLine r)) index result
  | [], _, _ => rfl
  | row :: rows, index, result => by
    by_cases hb : isBlankLine row = true
    · rw [List.takeWhile_cons_of_neg (by simp [hb])]
      simp [rowsLoop, hb]
    · rw [List.takeWhile_cons_of_pos (by simpa using hb)]
      conv_lhs => rw [rowsLoop, if_neg hb]
      conv_rhs => rw [rowsLoop, if_neg hb]
      cases splitAt row indizes with
      | error e => rfl
      | ok fields =>
        simp only
        split
        · rfl
        · cases fields with
          | nil => exact rowsLoop_takeWhile indizes values pfx rows _ _
          | cons rowname cells =>
            simp only
            cases cellsLoop pfx rowname cells values result with
            | error e => rfl
            | ok result' => exact rowsLoop_takeWhile indizes values pfx rows _ _

/-- The data-row loop never takes the field-count return when there are as
many header names as offsets. -/
theorem rowsLoop_ne_nil (indizes : List Nat) (values : List GoString) (pfx : GoString)
    (hlen : values.length = indizes.length) :
    ∀ (rows : List GoString) (index : Nat) (result : MetricMap) (c : Nat),
    rowsLoop indizes values pfx rows index result ≠ Except.ok (none, c)
  | [], _, _, _ => by simp [rowsLoop]
  | row :: rows, index, result, c => by
    rw [rowsLoop]
    split
    · simp
    · split
      · simp
      · rename_i fields hfields
        rw [if_neg (by rw [splitAt_length hfields, hlen]; simp)]
        split
        · exact rowsLoop_ne_nil indizes values pfx hlen rows _ _ c
        · split
          · simp
          · exact rowsLoop_ne_nil indizes values pfx hlen rows _ _ c

/-- C14: `splitAt` returns one field more than there are offsets, and on
every input on which `parseTable` reaches its data-row loop (the header loop
ended on a separator with boundaries `first :: sorted`, the header names
`values` were read and the name width `w` passed its test), there are one
name more than boundaries, every data row up to the next blank line splits,
at the offsets `w :: first :: sorted`, into exactly `len(values) + 1` fields,
and the field-count return is never taken: `parseTable` returns a non-nil
map. -/
theorem parseTable_rows_field_count (lines : List GoString) (cursor : Nat) (pfx : GoString)
    (he : Nat) (union : List Nat) (first : Nat) (sorted : List Nat) (values : List GoString)
    (w : Nat)
    (hheader : headerLoop (lines.drop (jumpOverEmptyLines lines cursor))
      (jumpOverEmptyLines lines cursor) [] = Except.ok (HeaderScan.separator he union))
    (hsorted : sortIndizes union = first :: sorted)
    (hnames : headerNamesLoop (first :: sorted)
      ((lines.drop (jumpOverEmptyLines lines cursor)).take
        (he - jumpOverEmptyLines lines cursor)) [] = Except.ok values)
    (hwidth : nameLengthLoop (lines.drop (he + 1)) 0 = Except.ok w)
    (hcheck : ¬ (w = 0 ∨ w ≥ first)) :
    (∀ (input : GoString) (indizes : List Nat) (fields : List GoString),
      splitAt input indizes = Except.ok fields → fields.length = indizes.length + 1) ∧
    parseTable lines cursor pfx
      = rowsLoop (w :: first :: sorted) values pfx (lines.drop (he + 1)) (he + 1) [] ∧
    values.length = (first :: sorted).length + 1 ∧
    (∀ row ∈ (lines.drop (he + 1)).takeWhile (fun r => !isBlankLine r),
      ∃ fields, splitAt row (w :: first :: sorted) = Except.ok fields ∧
        fields.length = values.length + 1) ∧
    (∀ c, parseTable lines cursor pfx ≠ Except.ok (none, c)) ∧
    ∃ m c, parseTable lines cursor pfx = Except.ok (some m, c) := by
  have hrun : parseTable lines cursor pfx
      = rowsLoop (w :: first :: sorted) values pfx (lines.drop (he + 1)) (he + 1) [] := by
    unfold parseTable
    simp only [hheader]
    unfold parseTableBody
    simp only [hsorted, hnames, hwidth, if_neg hcheck]
  obtain ⟨hle, hlt, hacc⟩ := headerLoop_separator _ _ _ _ _ hheader
  have hunion : union ≠ [] := by
    intro h
    rw [h] at hsorted
    exact List.noConfusion hsorted
  have hhe : he ≠ jumpOverEmptyLines lines cursor := fun h => hunion (hacc h)
  have hslice : (lines.drop (jumpOverEmptyLines lines cursor)).take
      (he - jumpOverEmptyLines lines cursor) ≠ [] := by
    rw [Ne, List.take_eq_nil_iff]
    rintro (h | h)
    · omega
    · rw [h] at hlt
      simp only [List.length_nil] at hlt
      omega
  have hvlen : values.length = (first :: sorted).length + 1 := by
    have := headerNamesLoop_length _ _ _ _ hnames
    rw [if_neg hslice] at this
    simpa using this
  have hrows := nameLengthLoop_isAscii _ _ _ hwidth
  have hlen : values.length = (w :: first :: sorted).length := by
    rw [hvlen]
    rfl
  refine ⟨fun input indizes fields h => splitAt_length h, hrun, hvlen, ?_, ?_, ?_⟩
  · intro row hrow
    refine ⟨_, splitAt_of_isAscii row (hrows row hrow) _, ?_⟩
    rw [fieldsFrom_length, hlen]
    simp
  · intro c
    rw [hrun]
    exact rowsLoop_ne_nil _ _ _ hlen _ _ _ c
  · rw [hrun, rowsLoop_takeWhile]
    obtain ⟨m, hm, -⟩ := rowsLoop_ok (w :: first :: sorted) values pfx hlen
      ((lines.drop (he + 1)).takeWhile (fun r => !isBlankLine r)) (he + 1) [] hrows
    exact ⟨m, _, hm⟩

/-- C14 (witness): the table of `shortRowLines`, whose last data row is
shorter than the header. -/
theorem parseTable_rows_field_count_witness :
    (∀ (input : GoString) (indizes : List Nat) (fields : List GoString),
      splitAt input indizes = Except.ok fields → fields.length = indizes.length + 1) ∧
    parseTable shortRowLines 0 "MEM ".toList
      = rowsLoop (6 :: 13 :: []) ["Pss".toList, "Private".toList] "MEM ".toList
          (shortRowLines.drop (1 + 1)) (1 + 1) [] ∧
    ["Pss".toList, "Private".toList].length = (13 :: ([] : List Nat)).length + 1 ∧
    (∀ row ∈ (shortRowLines.drop (1 + 1)).takeWhile (fun r => !isBlankLine r),
      ∃ fields, splitAt row (6 :: 13 :: []) = Except.ok fields ∧
        fields.length = ["Pss".toList, "Private".toList].length + 1) ∧
    (∀ c, parseTable shortRowLines 0 "MEM ".toList ≠ Except.ok (none, c)) ∧
    ∃ m c, parseTable shortRowLines 0 "MEM ".toList = Except.ok (some m, c) :=
  parseTable_rows_field_count shortRowLines 0 "MEM ".toList 1 [13] 13 []
    ["Pss".toList, "Private".toList] 6 (by decide) (by decide) (by decide) (by decide)
    (by decide)

end Adb
